import Mathlib

/-!
Verification of the Visper AI text-enhancement service (Python sources under
src/python/src). The Python code is shallowly embedded: strings are lists of
characters, the regular-expression operations used by the code (word-boundary
substitution with re.IGNORECASE, run collapsing, whitespace collapsing) are
modelled directly, Redis is modelled as explicit state, exceptions as Except,
and wall-clock metadata fields (processing_time_ms) are omitted.  The float
length-ratio comparisons are embedded as exact cross-multiplied integer
comparisons, and the float request timestamps of the rate limiter as
integers: the algorithm only compares, adds and subtracts timestamps, and
every finite set of binary floats embeds into the integers preserving those
operations (scale by a power of two), so no behaviour is lost.
-/

namespace Visper

/-- Python str.strip() whitespace set, re module \s for ASCII input:
space, tab, newline, carriage return, vertical tab, form feed. -/
def pyIsSpace (c : Char) : Bool :=
  c == ' ' || c == '\t' || c == '\n' || c == '\r' || c == Char.ofNat 11 || c == Char.ofNat 12

/-- Python re \w word character (ASCII range): letter, digit or underscore. -/
def isWordChar (c : Char) : Bool :=
  c.isAlpha || c.isDigit || c == '_'

/-- Case-insensitive literal match of a pattern against a prefix of the input,
returning the remaining input on success (re.IGNORECASE literal matching). -/
def lcmatch : List Char → List Char → Option (List Char)
  | [], s => some s
  | _ :: _, [] => none
  | p :: ps, c :: cs => if p.toLower = c.toLower then lcmatch ps cs else none

theorem lcmatch_length {pat s r : List Char} (h : lcmatch pat s = some r) :
    r.length + pat.length = s.length := by
  induction pat generalizing s with
  | nil =>
    simp only [lcmatch, Option.some.injEq] at h
    subst h; simp
  | cons p ps ih =>
    cases s with
    | nil => simp [lcmatch] at h
    | cons c cs =>
      simp only [lcmatch] at h
      split at h
      · have := ih h
        simp only [List.length_cons]
        omega
      · exact absurd h (by simp)

/-- A Python \b boundary holds after a match ending in a word character when
the rest of the input is empty or starts with a non-word character. -/
def atBoundary : List Char → Bool
  | [] => true
  | c :: _ => !isWordChar c

/-- Left-to-right scan of re.sub for a pattern of the shape \b<literal>\b with
re.IGNORECASE, where the literal starts and ends with a word character (true
for every pattern in the source).  prevWord records whether the previous
character of the original string is a word character, which decides the
leading boundary.  fuel bounds the number of scan steps; the wrapper passes
the string length, which always suffices because every step consumes at
least one character. -/
def subWordGo (p0 : Char) (ps repl : List Char) :
    Nat → Bool → List Char → List Char
  | 0, _, s => s
  | fuel + 1, prevWord, s =>
    match s with
    | [] => []
    | c :: cs =>
      if prevWord then
        c :: subWordGo p0 ps repl fuel (isWordChar c) cs
      else
        match lcmatch (p0 :: ps) (c :: cs) with
        | some rest =>
          if atBoundary rest then
            repl ++ subWordGo p0 ps repl fuel (isWordChar ((p0 :: ps).getLastD p0)) rest
          else
            c :: subWordGo p0 ps repl fuel (isWordChar c) cs
        | none => c :: subWordGo p0 ps repl fuel (isWordChar c) cs

/-- re.sub of a word-boundary-delimited literal pattern, case-insensitive. -/
def subWord (pat repl s : List Char) : List Char :=
  match pat with
  | [] => s
  | p :: ps => subWordGo p ps repl s.length false s

/-- Collapse runs of the repeated character t to a single occurrence:
re.sub of t+ with a single t.  prevT records whether the previous character
of the input was t, in which case a further t belongs to an already-replaced
run and is dropped. -/
def squeezeCharAux (t : Char) (prevT : Bool) : List Char → List Char
  | [] => []
  | c :: cs =>
    if c == t then
      if prevT then squeezeCharAux t true cs
      else c :: squeezeCharAux t true cs
    else c :: squeezeCharAux t false cs

/-- re.sub of a one-character run pattern t+ with a single t. -/
def squeezeChar (t : Char) (s : List Char) : List Char :=
  squeezeCharAux t false s

/-- re.sub of \s+ with a single space: the first character of each
whitespace run becomes one space, the rest of the run is dropped. -/
def collapseWsAux (prevSpace : Bool) : List Char → List Char
  | [] => []
  | c :: cs =>
    if pyIsSpace c then
      if prevSpace then collapseWsAux true cs
      else ' ' :: collapseWsAux true cs
    else c :: collapseWsAux false cs

/-- re.sub of \s+ with a single space. -/
def collapseWs (s : List Char) : List Char :=
  collapseWsAux false s

/-- Python str.strip() on the right. -/
def pyStripRight (l : List Char) : List Char :=
  (l.reverse.dropWhile pyIsSpace).reverse

/-- Python str.strip(): remove leading and trailing whitespace. -/
def pyStrip (l : List Char) : List Char :=
  pyStripRight (l.dropWhile pyIsSpace)

/-- Python str.strip(t) for a single character t: remove every leading and
trailing occurrence of t. -/
def stripCharBoth (t : Char) (l : List Char) : List Char :=
  ((l.dropWhile (fun c => c == t)).reverse.dropWhile (fun c => c == t)).reverse

/-- Apostrophe character, written by code to keep source scanning simple. -/
def apos : Char := Char.ofNat 39

/-- Double-quote character. -/
def dquote : Char := Char.ofNat 34

/-- EnhancementStyle from core/ai/enhancement_service.py. -/
inductive EnhancementStyle
  | professional
  | casual
  | concise
  | friendly
  | formal
deriving DecidableEq

/-- String value of a style, as in the Python str-valued Enum. -/
def EnhancementStyle.value : EnhancementStyle → String
  | .professional => "professional"
  | .casual => "casual"
  | .concise => "concise"
  | .friendly => "friendly"
  | .formal => "formal"

/-- EnhancementTone from core/ai/enhancement_service.py. -/
inductive EnhancementTone
  | confident
  | polite
  | neutral
  | enthusiastic
deriving DecidableEq

/-- String value of a tone, as in the Python str-valued Enum. -/
def EnhancementTone.value : EnhancementTone → String
  | .confident => "confident"
  | .polite => "polite"
  | .neutral => "neutral"
  | .enthusiastic => "enthusiastic"

/-- The abbreviation-expansion table of _rule_based_preprocess, in source
order (Python dicts preserve insertion order). -/
def profReplacements : List (List Char × List Char) :=
  [ ("u".data, "you".data)
  , ("ur".data, "your".data)
  , ("urs".data, "yours".data)
  , ("plz".data, "please".data)
  , ("pls".data, "please".data)
  , ("thx".data, "thank you".data)
  , ("thanx".data, "thank you".data)
  , ("ty".data, "thank you".data)
  , ("np".data, "no problem".data)
  , ("gonna".data, "going to".data)
  , ("wanna".data, "want to".data)
  , ("gotta".data, "have to".data)
  , ("kinda".data, "kind of".data)
  , ("sorta".data, "sort of".data)
  , ("yeah".data, "yes".data)
  , ("yep".data, "yes".data)
  , ("nah".data, "no".data)
  , ("nope".data, "no".data)
  , ("ok".data, "okay".data)
  , ("cuz".data, "because".data)
  , ("cause".data, "because".data)
  , ("tho".data, "though".data)
  , ("thru".data, "through".data)
  , ("btw".data, "by the way".data)
  , ("idk".data, "I don".data ++ [apos] ++ "t know".data)
  , ("imo".data, "in my opinion".data)
  , ("fyi".data, "for your information".data)
  , ("asap".data, "as soon as possible".data) ]

/-- Casual words removed for professional and formal styles. -/
def casualRemovals : List (List Char) :=
  ["bro".data, "dude".data, "man".data, "yo".data]

/-- Filler words and phrases removed for the concise style. -/
def conciseFillers : List (List Char) :=
  [ "like".data, "just".data, "really".data, "very".data
  , "actually".data, "basically".data, "literally".data
  , "kind of".data, "sort of".data ]

/-- Hedging phrases removed for the confident tone. -/
def hedgeWords : List (List Char) :=
  ["maybe".data, "perhaps".data, "possibly".data, "I think".data, "I guess".data]

/-- Apply a list of (pattern, replacement) word substitutions in order. -/
def applySubs (subs : List (List Char × List Char)) (s : List Char) : List Char :=
  subs.foldl (fun t pr => subWord pr.1 pr.2 t) s

/-- Apply a list of word-removal patterns in order (replacement is empty). -/
def applyRemovals (pats : List (List Char)) (s : List Char) : List Char :=
  pats.foldl (fun t p => subWord p [] t) s

/-- TextEnhancementService._rule_based_preprocess. -/
def rule_based_preprocess (message : List Char) (style : EnhancementStyle) : List Char :=
  let text := pyStrip message
  if style = .professional ∨ style = .formal then
    let text := applySubs profReplacements text
    let text := applyRemovals casualRemovals text
    let text := squeezeChar '!' text
    let text := squeezeChar '?' text
    let text := squeezeChar '.' text
    pyStrip (collapseWs text)
  else if style = .concise then
    pyStrip (collapseWs (applyRemovals conciseFillers text))
  else text

/-- TextEnhancementService._rule_based_fallback. -/
def rule_based_fallback (message : List Char) (style : EnhancementStyle)
    (tone : EnhancementTone) : List Char :=
  let text := rule_based_preprocess message style
  let text :=
    match text with
    | [] => ([] : List Char)
    | c :: cs => if c.isLower then c.toUpper :: cs else c :: cs
  let text :=
    if text ≠ [] ∧ text.getLastD ' ' ∉ ['.', '!', '?'] then
      text ++ [if style = .friendly ∨ tone = .enthusiastic then '!' else '.']
    else text
  if tone = .confident then
    pyStrip (collapseWs (applyRemovals hedgeWords text))
  else text

/-- Search variant of the word-boundary matcher: does re.search of the
pattern \b<literal>\b (case-insensitive) find a match? -/
def searchWordAuxNE (p0 : Char) (ps : List Char) (prevWord : Bool) (s : List Char) : Bool :=
  match s with
  | [] => false
  | c :: cs =>
    if prevWord then searchWordAuxNE p0 ps (isWordChar c) cs
    else
      match lcmatch (p0 :: ps) (c :: cs) with
      | some rest =>
        if atBoundary rest then true else searchWordAuxNE p0 ps (isWordChar c) cs
      | none => searchWordAuxNE p0 ps (isWordChar c) cs

/-- re.search of a word-boundary-delimited literal, case-insensitive. -/
def searchWord (pat s : List Char) : Bool :=
  match pat with
  | [] => true
  | p :: ps => searchWordAuxNE p ps false s

/-- The informal-word list of analyze_improvements. -/
def informalWords : List (List Char) :=
  ["u".data, "ur".data, "plz".data, "thx".data, "bro".data, "dude".data,
   "gonna".data, "wanna".data]

/-- Python substring test for a double space. -/
def hasTwoSpaces : List Char → Bool
  | [] => false
  | [_] => false
  | a :: b :: r => (a == ' ' && b == ' ') || hasTwoSpaces (b :: r)

/-- TextEnhancementService.analyze_improvements.  Python IndexError from
indexing an empty string is modelled as an Except error; evaluation order and
the short-circuiting of the Python and-operator are preserved.  The float
comparisons len(enhanced) > len(original) * 1.2 and len(enhanced) <
len(original) * 0.8 are embedded as the exact cross-multiplied integer
comparisons 5 len(enhanced) > 6 len(original) and 5 len(enhanced) <
4 len(original), which agree with the double-precision evaluation at every
length the service can produce (originals up to the 2000-character message
bound). -/
def analyze_improvements (original enhanced : List Char) (style tone : String) :
    Except String (List String) :=
  let lenImps : List String :=
    if original.length * 6 < enhanced.length * 5 then
      ["Expanded with more detail"]
    else if enhanced.length * 5 < original.length * 4 then
      ["Made more concise"]
    else []
  match enhanced with
  | [] => .error "IndexError"
  | e0 :: _ =>
    let capStep : Except String (List String) :=
      if e0.isUpper then
        match original with
        | [] => .error "IndexError"
        | o0 :: _ => .ok (if ¬ o0.isUpper then ["Capitalized first letter"] else [])
      else .ok []
    match capStep with
    | .error e => .error e
    | .ok capImps =>
      let punctStep : Except String (List String) :=
        if enhanced.getLastD ' ' ∈ ['.', '!', '?'] then
          match original.getLast? with
          | none => .error "IndexError"
          | some oLast => .ok (if oLast ∉ ['.', '!', '?'] then ["Added proper punctuation"] else [])
        else .ok []
      match punctStep with
      | .error e => .error e
      | .ok punctImps =>
        let hadInformal := informalWords.any (fun w => searchWord w original)
        let hasInformal := informalWords.any (fun w => searchWord w enhanced)
        let informalImps : List String :=
          if hadInformal && !hasInformal then ["Replaced informal language"] else []
        let spacingImps : List String :=
          if hasTwoSpaces original && !hasTwoSpaces enhanced then ["Fixed spacing"] else []
        let improvements := lenImps ++ capImps ++ punctImps ++ informalImps ++ spacingImps
        if improvements = [] then
          .ok ["Applied " ++ style ++ " style", "Used " ++ tone ++ " tone"]
        else .ok improvements

/-- Response of OllamaClient.chat, with the fields enhance reads. -/
structure OllamaResponse where
  content : List Char
  total_duration : Option Nat
  eval_count : Option Nat
deriving DecidableEq

/-- One recorded invocation of the generative backend: the user-prompt text
submitted and the max_tokens argument of the chat call. -/
structure BackendCall where
  userContent : List Char
  maxTokens : Nat
deriving DecidableEq

/-- The metadata dict returned by enhance.  The model identifier and the
wall-clock processing_time_ms entries are environment data and are omitted
from the embedding. -/
structure EnhanceMeta where
  method : String
  styleValue : String
  toneValue : String
  error : Option (List Char)
  llmDuration : Option Nat
  tokensGenerated : Option Nat
deriving DecidableEq

/-- Lazy scan for re .*?: without DOTALL: consume up to and including the
first colon, failing if a newline comes first or no colon exists. -/
def scanToColon : List Char → Option (List Char)
  | [] => none
  | c :: cs => if c = ':' then some cs else if c = '\n' then none else scanToColon cs

/-- The literal of the first alternative of the meta-text cleanup pattern. -/
def heresPat : List Char := "here".data ++ [apos] ++ "s".data

/-- The literal of the second alternative of the meta-text cleanup pattern. -/
def hereIsPat : List Char := "here is".data

/-- The cleanup re.sub removing an anchored leading (Here's|Here is).*?:
match, case-insensitively.  The two alternatives diverge after their fifth
character, so at most one can match a given string. -/
def cleanupMeta (s : List Char) : List Char :=
  match lcmatch heresPat s with
  | some rest => ((scanToColon rest).getD s)
  | none =>
    match lcmatch hereIsPat s with
    | some rest => ((scanToColon rest).getD s)
    | none => s

/-- The cleanup enhance applies to the chat reply before validating it:
strip, remove an anchored meta-text match and strip, then strip double
quotes and then single quotes from both ends. -/
def cleanedOutput (resp : OllamaResponse) : List Char :=
  stripCharBoth apos (stripCharBoth dquote (pyStrip (cleanupMeta (pyStrip resp.content))))

/-- TextEnhancementService.enhance.  The awaited chat call is modelled by the
backend argument: an exception from the call is an Except error, a reply is
an OllamaResponse.  The returned list records the backend invocations the
run performs, each with the submitted prompt text and token budget. -/
def TE_enhance (message : List Char) (style : EnhancementStyle) (tone : EnhancementTone)
    (enableFallback : Bool) (backend : Except (List Char) OllamaResponse) :
    Except (List Char) (List Char × EnhanceMeta) × List BackendCall :=
  let preprocessed := rule_based_preprocess message style
  let call : BackendCall :=
    ⟨"Enhance this message:\n\n".data ++ preprocessed, min (3 * message.length) 500⟩
  let onFail : List Char → Except (List Char) (List Char × EnhanceMeta) := fun e =>
    if enableFallback then
      .ok (rule_based_fallback message style tone,
        ⟨"fallback", style.value, tone.value, some e, none, none⟩)
    else .error e
  let res : Except (List Char) (List Char × EnhanceMeta) :=
    match backend with
    | .error e => onFail e
    | .ok resp =>
      let cleaned := cleanedOutput resp
      if cleaned = [] ∨ cleaned.length < 3 then
        onFail "LLM output too short".data
      else if message.length * 4 < cleaned.length then
        onFail "LLM output too long".data
      else
        .ok (cleaned,
          ⟨"llm", style.value, tone.value, none, resp.total_duration, resp.eval_count⟩)
  (res, [call])

/-- Number of whitespace-separated words, the Python len(message.split()). -/
def wordCountAux (inWord : Bool) : List Char → Nat
  | [] => 0
  | c :: cs =>
    if pyIsSpace c then wordCountAux false cs
    else (if inWord then 0 else 1) + wordCountAux true cs

/-- Word count of a message. -/
def wordCount (s : List Char) : Nat := wordCountAux false s

namespace SHA256

/-- Reduce to a 32-bit word. -/
def w32 (n : Nat) : Nat := n % 4294967296

/-- Right rotation of a 32-bit word by k bits. -/
def rotr (k n : Nat) : Nat := w32 (n / 2 ^ k + n % 2 ^ k * 2 ^ (32 - k))

/-- Logical right shift. -/
def shr (k n : Nat) : Nat := n / 2 ^ k

/-- Bitwise complement within 32 bits. -/
def bnot (a : Nat) : Nat := 4294967295 - w32 a

/-- Big sigma 0. -/
def bsig0 (x : Nat) : Nat := Nat.xor (Nat.xor (rotr 2 x) (rotr 13 x)) (rotr 22 x)

/-- Big sigma 1. -/
def bsig1 (x : Nat) : Nat := Nat.xor (Nat.xor (rotr 6 x) (rotr 11 x)) (rotr 25 x)

/-- Small sigma 0. -/
def ssig0 (x : Nat) : Nat := Nat.xor (Nat.xor (rotr 7 x) (rotr 18 x)) (shr 3 x)

/-- Small sigma 1. -/
def ssig1 (x : Nat) : Nat := Nat.xor (Nat.xor (rotr 17 x) (rotr 19 x)) (shr 10 x)

/-- Choose function. -/
def ch (x y z : Nat) : Nat := Nat.xor (Nat.land x y) (Nat.land (bnot x) z)

/-- Majority function. -/
def maj (x y z : Nat) : Nat := Nat.xor (Nat.xor (Nat.land x y) (Nat.land x z)) (Nat.land y z)

/-- Round constants, the 64 words of FIPS 180-4, written in decimal. -/
def K : List Nat :=
  [ 1116352408, 1899447441, 3049323471, 3921009573
  , 961987163, 1508970993, 2453635748, 2870763221
  , 3624381080, 310598401, 607225278, 1426881987
  , 1925078388, 2162078206, 2614888103, 3248222580
  , 3835390401, 4022224774, 264347078, 604807628
  , 770255983, 1249150122, 1555081692, 1996064986
  , 2554220882, 2821834349, 2952996808, 3210313671
  , 3336571891, 3584528711, 113926993, 338241895
  , 666307205, 773529912, 1294757372, 1396182291
  , 1695183700, 1986661051, 2177026350, 2456956037
  , 2730485921, 2820302411, 3259730800, 3345764771
  , 3516065817, 3600352804, 4094571909, 275423344
  , 430227734, 506948616, 659060556, 883997877
  , 958139571, 1322822218, 1537002063, 1747873779
  , 1955562222, 2024104815, 2227730452, 2361852424
  , 2428436474, 2756734187, 3204031479, 3329325298 ]

/-- Working registers. -/
structure Regs where
  a : Nat
  b : Nat
  c : Nat
  d : Nat
  e : Nat
  f : Nat
  g : Nat
  h : Nat
deriving DecidableEq

/-- Initial hash value. -/
def initRegs : Regs :=
  ⟨1779033703, 3144134277, 1013904242, 2773480762,
   1359893119, 2600822924, 528734635, 1541459225⟩

/-- One compression round. -/
def compressRound (r : Regs) (kw : Nat × Nat) : Regs :=
  let t1 := w32 (r.h + bsig1 r.e + ch r.e r.f r.g + kw.1 + kw.2)
  let t2 := w32 (bsig0 r.a + maj r.a r.b r.c)
  ⟨w32 (t1 + t2), r.a, r.b, r.c, w32 (r.d + t1), r.e, r.f, r.g⟩

/-- Extend the 16 block words by n further schedule words. -/
def extendWords : Nat → List Nat → List Nat
  | 0, ws => ws
  | n + 1, ws =>
    let i := ws.length
    let nw := w32 (ssig1 (ws.getD (i - 2) 0) + ws.getD (i - 7) 0 +
      ssig0 (ws.getD (i - 15) 0) + ws.getD (i - 16) 0)
    extendWords n (ws ++ [nw])

/-- Combine a processed block into the running hash. -/
def compressBlock (hs : Regs) (block : List Nat) : Regs :=
  let ws := extendWords 48 block
  let r := (K.zip ws).foldl compressRound hs
  ⟨w32 (hs.a + r.a), w32 (hs.b + r.b), w32 (hs.c + r.c), w32 (hs.d + r.d),
   w32 (hs.e + r.e), w32 (hs.f + r.f), w32 (hs.g + r.g), w32 (hs.h + r.h)⟩

/-- Big-endian bytes of n, k bytes wide. -/
def beBytes (k n : Nat) : List Nat :=
  match k with
  | 0 => []
  | k + 1 => beBytes k (n / 256) ++ [n % 256]

/-- Group bytes into 32-bit big-endian words. -/
def bytesToWords : List Nat → List Nat
  | b0 :: b1 :: b2 :: b3 :: rest => (((b0 * 256 + b1) * 256 + b2) * 256 + b3) :: bytesToWords rest
  | _ => []

/-- Split a byte string into 64-byte chunks. -/
def chunk64 (l : List Nat) : List (List Nat) :=
  match l with
  | [] => []
  | c :: cs => (c :: cs).take 64 :: chunk64 ((c :: cs).drop 64)
termination_by l.length
decreasing_by
  · simp only [List.length_cons, List.length_drop]
    omega

/-- SHA-256 padding: 0x80, zeros to 56 mod 64, 8-byte big-endian bit length. -/
def pad (msg : List Nat) : List Nat :=
  let len := msg.length
  let zeros := (119 - len % 64) % 64
  msg ++ [128] ++ List.replicate zeros 0 ++ beBytes 8 (8 * len)

/-- SHA-256 of a byte string, as the eight hash words. -/
def sha256Words (msg : List Nat) : Regs :=
  (chunk64 (pad msg)).foldl (fun hs blk => compressBlock hs (bytesToWords blk)) initRegs

/-- The 32 digest bytes. -/
def regsBytes (r : Regs) : List Nat :=
  beBytes 4 r.a ++ beBytes 4 r.b ++ beBytes 4 r.c ++ beBytes 4 r.d ++
  beBytes 4 r.e ++ beBytes 4 r.f ++ beBytes 4 r.g ++ beBytes 4 r.h

/-- Lowercase hexadecimal digits. -/
def hexDigits : List Char := "0123456789abcdef".data

/-- Hex digit character of a nibble. -/
def hexChar (n : Nat) : Char := hexDigits.getD n '0'

/-- Two hex digit characters of a byte. -/
def byteHex (b : Nat) : List Char := [hexChar (b / 16 % 16), hexChar (b % 16)]

/-- Hex string of a byte string. -/
def hexOfBytes (bs : List Nat) : List Char := (bs.map byteHex).flatten

/-- hashlib.sha256(data).hexdigest(). -/
def sha256hex (msg : List Nat) : List Char := hexOfBytes (regsBytes (sha256Words msg))

end SHA256

/-- UTF-8 encoding of one character, Python str.encode. -/
def utf8Bytes (c : Char) : List Nat :=
  let n := c.toNat
  if n < 128 then [n]
  else if n < 2048 then [192 + n / 64, 128 + n % 64]
  else if n < 65536 then [224 + n / 4096, 128 + n / 64 % 64, 128 + n % 64]
  else [240 + n / 262144, 128 + n / 4096 % 64, 128 + n / 64 % 64, 128 + n % 64]

/-- UTF-8 bytes of a string. -/
def strBytes (s : List Char) : List Nat := (s.map utf8Bytes).flatten

/-- The serialized content hashed by _build_cache_key. -/
def cacheContent (message styleV toneV : List Char) : List Char :=
  message ++ ":".data ++ styleV ++ ":".data ++ toneV

/-- _build_cache_key from api/v1/ai_bot.py. -/
def build_cache_key (userId message styleV toneV : List Char) : List Char :=
  "enhance:v2:".data ++ userId ++ ":".data ++
    SHA256.sha256hex (strBytes (cacheContent message styleV toneV))

/-- State of one rate_limit:{user}:{path} Redis sorted set.  The member
string of each entry is str(now) for its score now, so members are
identified with their scores; ttl is the expiry last set on the key, in
seconds, as passed to redis.expire. -/
structure RLState where
  entries : List ℤ
  ttl : Option ℤ
deriving DecidableEq

/-- redis.zremrangebyscore key -inf ub: drop every entry with score at or
below ub (both range ends are inclusive). -/
def zremLow (entries : List ℤ) (ub : ℤ) : List ℤ :=
  entries.filter (fun x => ub < x)

/-- redis.zadd key (str(now) -> now): a new member is appended; an existing
member merely has its score rewritten to the same value. -/
def zaddSingle (entries : List ℤ) (x : ℤ) : List ℤ :=
  if x ∈ entries then entries else entries ++ [x]

/-- check_rate_limit from api/dependencies.py: purge the expired window,
count, reject at the limit without recording, otherwise record the request
and refresh the key expiry to period + 10 seconds.  Returns (is_limited,
updated key state); now is the timestamp captured at entry. -/
def check_rate_limit (st : RLState) (now : ℤ) (limit : ℕ) (period : ℤ) :
    Bool × RLState :=
  let s1 := zremLow st.entries (now - period)
  if limit ≤ s1.length then (true, ⟨s1, st.ttl⟩)
  else (false, ⟨zaddSingle s1 now, some (period + 10)⟩)

/-- A sequence of admission checks for one (caller, path) key, returning the
per-request is_limited results and the final key state. -/
def runRequests (limit : ℕ) (period : ℤ) : RLState → List ℤ → List Bool × RLState
  | st, [] => ([], st)
  | st, t :: ts =>
    let r := check_rate_limit st t limit period
    let rest := runRequests limit period r.2 ts
    (r.1 :: rest.1, rest.2)

/-- Which of the four store round trips of check_rate_limit raise. -/
structure StoreFaults where
  zremFail : Bool
  zcardFail : Bool
  zaddFail : Bool
  expireFail : Bool
deriving DecidableEq

/-- Some store operation raises. -/
def StoreFaults.anyFault (f : StoreFaults) : Bool :=
  f.zremFail || f.zcardFail || f.zaddFail || f.expireFail

/-- check_rate_limit with a fallible store: each awaited Redis call may
raise, aborting the check at that point. -/
def check_rate_limitE (f : StoreFaults) (st : RLState) (now : ℤ) (limit : ℕ)
    (period : ℤ) : Except Unit (Bool × RLState) :=
  if f.zremFail then .error () else
  let s1 := zremLow st.entries (now - period)
  if f.zcardFail then .error () else
  if limit ≤ s1.length then .ok (true, ⟨s1, st.ttl⟩) else
  if f.zaddFail then .error () else
  let s2 := zaddSingle s1 now
  if f.expireFail then .error () else
  .ok (false, ⟨s2, some (period + 10)⟩)

/-- Outcome of the rate limiter dependency for one request. -/
inductive RateLimitOutcome
  | admitted
  | rateLimited
deriving DecidableEq

/-- rate_limiter_dependency from api/dependencies.py, after the caller tier
has fixed user_id, path and limit: a RateLimitException is raised only on a
genuine limited result; every other exception from the check is swallowed
and the request proceeds (fail open). -/
def rate_limiter_dependency (f : StoreFaults) (st : RLState) (now : ℤ)
    (limit : ℕ) (period : ℤ) : RateLimitOutcome :=
  match check_rate_limitE f st now limit period with
  | .error _ => .admitted
  | .ok (true, _) => .rateLimited
  | .ok (false, _) => .admitted

/-- The list comprehension of BatchEnhanceRequest.validate_messages: keep
only messages that are non-empty after stripping, stripped. -/
def stripSurvivors (msgs : List (List Char)) : List (List Char) :=
  msgs.filterMap (fun m => if pyStrip m = [] then Option.none else some (pyStrip m))

/-- BatchEnhanceRequest.validate_messages from schemas/ai_bot.py: reject an
empty or oversized list, then keep only the stripped survivors. -/
def validate_messages (msgs : List (List Char)) : Except String (List (List Char)) :=
  if msgs = [] then .error "At least one message required"
  else if 5 < msgs.length then .error "Maximum 5 messages per batch"
  else .ok (stripSurvivors msgs)

/-- A cached enhancement result; the JSON serialization round trip of
_cache_result and _get_cached_result is modelled as the identity. -/
structure CacheVal where
  enhanced : List Char
  improvements : List String
  metadata : EnhanceMeta
deriving DecidableEq

/-- The Redis string keyspace holding enhancement cache entries, most recent
write first. -/
abbrev CacheStore := List (List Char × CacheVal)

/-- redis.get on the cache keyspace. -/
def storeGet (st : CacheStore) (k : List Char) : Option CacheVal :=
  match st with
  | [] => none
  | (k2, v) :: rest => if k2 = k then some v else storeGet rest k

/-- redis.set on the cache keyspace (a newer entry shadows an older one). -/
def storeSet (st : CacheStore) (k : List Char) (v : CacheVal) : CacheStore :=
  (k, v) :: st

/-- Whether the cache get and the cache set round trips raise. -/
structure CacheFaults where
  getFail : Bool
  setFail : Bool
deriving DecidableEq

/-- A fault-free store. -/
def CacheFaults.none : CacheFaults := ⟨false, false⟩

/-- _get_cached_result: a raising get is swallowed and treated as a miss. -/
def get_cached_result (f : CacheFaults) (st : CacheStore)
    (userId message styleV toneV : List Char) : Option CacheVal :=
  if f.getFail then Option.none
  else storeGet st (build_cache_key userId message styleV toneV)

/-- _cache_result: a raising set is swallowed, leaving the store unchanged. -/
def cache_result (f : CacheFaults) (st : CacheStore)
    (userId message styleV toneV : List Char) (v : CacheVal) : CacheStore :=
  if f.setFail then st else storeSet st (build_cache_key userId message styleV toneV) v

/-- Body of a successful response of POST /ai/enhance. -/
structure EnhanceResponse where
  original : List Char
  enhanced : List Char
  styleValue : String
  toneValue : String
  improvements : List String
  metadata : EnhanceMeta
  cached : Bool
deriving DecidableEq

/-- The enhance_message endpoint of api/v1/ai_bot.py, after authentication
and rate limiting: cache lookup, enhancement, improvement analysis,
best-effort cache write.  Any exception on the fresh path becomes the
generic 500 detail.  message is req.message, which the request validator has
already stripped. -/
def enhance_message (f : CacheFaults) (st : CacheStore) (userId message : List Char)
    (style : EnhancementStyle) (tone : EnhancementTone) (enableFallback : Bool)
    (backend : Except (List Char) OllamaResponse) :
    Except (List Char) EnhanceResponse × CacheStore :=
  match get_cached_result f st userId message style.value.data tone.value.data with
  | some cached =>
    (.ok ⟨message, cached.enhanced, style.value, tone.value,
      cached.improvements, cached.metadata, true⟩, st)
  | Option.none =>
    match (TE_enhance message style tone enableFallback backend).1 with
    | .error _ => (.error "Failed to enhance message".data, st)
    | .ok (enhanced, meta) =>
      match analyze_improvements message enhanced style.value tone.value with
      | .error _ => (.error "Failed to enhance message".data, st)
      | .ok improvements =>
        let st2 := cache_result f st userId message style.value.data tone.value.data
          ⟨enhanced, improvements, meta⟩
        (.ok ⟨message, enhanced, style.value, tone.value, improvements, meta, false⟩, st2)

/-- One result dict of the batch endpoint; fields absent from a given
branch of the source are Option.none. -/
structure BatchItem where
  original : List Char
  enhanced : List Char
  improvements : Option (List String)
  metadata : Option EnhanceMeta
  error : Option (List Char)
  cached : Bool
deriving DecidableEq

/-- Body of a successful response of POST /ai/enhance/batch. -/
structure BatchResponse where
  results : List BatchItem
  total : ℕ
  successful : ℕ
  failed : ℕ
  styleValue : String
  toneValue : String
deriving DecidableEq

/-- One iteration of the enhance_messages_batch per-message loop.  oracle
gives the chat reply the backend would produce for each message; the
per-message try block turns any enhancement or analysis exception into an
error item.  Returns (result item, counted as successful, updated store). -/
def batchStep (f : CacheFaults) (userId : List Char) (style : EnhancementStyle)
    (tone : EnhancementTone) (enableFallback : Bool)
    (oracle : List Char → Except (List Char) OllamaResponse)
    (st : CacheStore) (message : List Char) : BatchItem × Bool × CacheStore :=
  if message = [] ∨ (pyStrip message).length < 3 then
    (⟨message, message, Option.none, Option.none, some "Message too short".data, false⟩,
      false, st)
  else
    match get_cached_result f st userId message style.value.data tone.value.data with
    | some cached =>
      (⟨message, cached.enhanced, some cached.improvements, Option.none, Option.none, true⟩,
        true, st)
    | Option.none =>
      match (TE_enhance message style tone enableFallback (oracle message)).1 with
      | .error e => (⟨message, message, Option.none, Option.none, some e, false⟩, false, st)
      | .ok (enhanced, meta) =>
        match analyze_improvements message enhanced style.value tone.value with
        | .error e =>
          (⟨message, message, Option.none, Option.none, some e.data, false⟩, false, st)
        | .ok improvements =>
          (⟨message, enhanced, some improvements, some meta, Option.none, false⟩, true,
            cache_result f st userId message style.value.data tone.value.data
              ⟨enhanced, improvements, meta⟩)

/-- The per-message loop of enhance_messages_batch, folding batchStep over
the validated messages and counting successful and failed items.  Returns
(results, successful, failed, final store). -/
def batchLoop (f : CacheFaults) (userId : List Char) (style : EnhancementStyle)
    (tone : EnhancementTone) (enableFallback : Bool)
    (oracle : List Char → Except (List Char) OllamaResponse) :
    CacheStore → List (List Char) → List BatchItem × ℕ × ℕ × CacheStore
  | st, [] => ([], 0, 0, st)
  | st, message :: rest =>
    let s := batchStep f userId style tone enableFallback oracle st message
    let r := batchLoop f userId style tone enableFallback oracle s.2.2 rest
    (s.1 :: r.1, (if s.2.1 then 1 else 0) + r.2.1, (if s.2.1 then 0 else 1) + r.2.2.1,
      r.2.2.2)

/-- The enhance_messages_batch endpoint: request validation, then the
per-message loop; total is the length of the produced results list. -/
def enhance_messages_batch (f : CacheFaults) (st : CacheStore) (userId : List Char)
    (msgs : List (List Char)) (style : EnhancementStyle) (tone : EnhancementTone)
    (enableFallback : Bool)
    (oracle : List Char → Except (List Char) OllamaResponse) :
    Except String (BatchResponse × CacheStore) :=
  match validate_messages msgs with
  | .error e => .error e
  | .ok processed =>
    let r := batchLoop f userId style tone enableFallback oracle st processed
    .ok (⟨r.1, r.1.length, r.2.1, r.2.2.1, style.value, tone.value⟩, r.2.2.2)

/-- Task states of the async lifecycle. -/
inductive TaskStatus
  | pending
  | processing
  | completed
  | failed
deriving DecidableEq

/-- One task record as written by _store_task_status.  Every write replaces
the stored record wholesale (redis.set of the full dict), so each record is
exactly the data of its write; absent dict fields are Option.none.
hasCompletedAt records presence of the completed_at timestamp. -/
structure TaskRecord where
  status : TaskStatus
  message : Option (List Char)
  original : Option (List Char)
  enhanced : Option (List Char)
  styleValue : Option String
  toneValue : Option String
  improvements : Option (List String)
  metadata : Option EnhanceMeta
  error : Option (List Char)
  cachedFlag : Option Bool
  hasCompletedAt : Bool
deriving DecidableEq

/-- The pending record written by enhance_message_async. -/
def pendingRecord (message : List Char) : TaskRecord :=
  ⟨.pending, some message, Option.none, Option.none, Option.none, Option.none,
   Option.none, Option.none, Option.none, Option.none, false⟩

/-- The processing record written on background start. -/
def processingRecord (message : List Char) : TaskRecord :=
  ⟨.processing, some message, Option.none, Option.none, Option.none, Option.none,
   Option.none, Option.none, Option.none, Option.none, false⟩

/-- The completed record. -/
def completedRecord (message enhanced : List Char) (style : EnhancementStyle)
    (tone : EnhancementTone) (improvements : List String) (meta : EnhanceMeta)
    (cached : Bool) : TaskRecord :=
  ⟨.completed, Option.none, some message, some enhanced, some style.value,
   some tone.value, some improvements, some meta, Option.none, some cached, true⟩

/-- The failed record. -/
def failedRecord (e : List Char) : TaskRecord :=
  ⟨.failed, Option.none, Option.none, Option.none, Option.none, Option.none,
   Option.none, Option.none, some e, Option.none, true⟩

/-- _process_enhancement_background: the sequence of task records it writes
and the final cache store.  The best-effort webhook call affects no record
and is omitted; exceptions inside each _store_task_status are swallowed by
that helper itself. -/
def process_enhancement_background (f : CacheFaults) (st : CacheStore)
    (userId message : List Char) (style : EnhancementStyle) (tone : EnhancementTone)
    (enableFallback : Bool) (backend : Except (List Char) OllamaResponse) :
    List TaskRecord × CacheStore :=
  let procWrite := processingRecord message
  match get_cached_result f st userId message style.value.data tone.value.data with
  | some cached =>
    ([procWrite, completedRecord message cached.enhanced style tone
        cached.improvements cached.metadata true], st)
  | Option.none =>
    match (TE_enhance message style tone enableFallback backend).1 with
    | .error e => ([procWrite, failedRecord e], st)
    | .ok (enhanced, meta) =>
      match analyze_improvements message enhanced style.value tone.value with
      | .error e => ([procWrite, failedRecord e.data], st)
      | .ok improvements =>
        let st2 := cache_result f st userId message style.value.data tone.value.data
          ⟨enhanced, improvements, meta⟩
        ([procWrite, completedRecord message enhanced style tone improvements meta false], st2)

/-- enhance_message_async: the 202 response status and the initial record it
writes before scheduling the background task. -/
structure AsyncSubmitResult where
  responseStatus : TaskStatus
  initialRecord : TaskRecord
deriving DecidableEq

/-- The submit endpoint, which writes the pending record and answers
pending without waiting for the background task. -/
def enhance_message_async (message : List Char) : AsyncSubmitResult :=
  ⟨.pending, pendingRecord message⟩

/-- The full sequence of records written for one async task, in write
order: the submit write followed by the background writes. -/
def async_task_trace (f : CacheFaults) (st : CacheStore) (userId message : List Char)
    (style : EnhancementStyle) (tone : EnhancementTone) (enableFallback : Bool)
    (backend : Except (List Char) OllamaResponse) : List TaskRecord :=
  (enhance_message_async message).initialRecord ::
    (process_enhancement_background f st userId message style tone enableFallback backend).1

/-- The only record sequences the async lifecycle may write. -/
def validStatusSeq : List TaskStatus → Bool
  | [.pending, .processing, .completed] => true
  | [.pending, .processing, .failed] => true
  | _ => false

/-- Consistency of a single stored record: a completed record carries every
result field and no error; a failed record carries an error and no result. -/
def recordConsistent (r : TaskRecord) : Bool :=
  (if r.status = .completed then
    r.error.isNone && r.original.isSome && r.enhanced.isSome && r.styleValue.isSome &&
      r.toneValue.isSome && r.improvements.isSome && r.metadata.isSome && r.hasCompletedAt
   else true) &&
  (if r.status = .failed then
    r.error.isSome && r.enhanced.isNone && r.original.isNone else true)

/-- Total field of a successful batch response. -/
def batchTotalOf : Except String (BatchResponse × CacheStore) → Option ℕ
  | .ok (r, _) => some r.total
  | .error _ => Option.none

/-- A five-message batch whose third message is empty (length 0 < 3). -/
def c8msgs : List (List Char) :=
  ["hello there".data, "good morning".data, [], "see you soon".data, "fine thanks".data]

/-- A five-message batch with one whitespace-only message. -/
def c10msgs : List (List Char) :=
  ["hello there".data, "   ".data, "see you soon".data, "fine thanks".data,
   "good morning".data]

/-- A 2000-character message over the two letters a and b. -/
def binMsg (v : Fin 2000 → Fin 2) : List Char :=
  List.ofFn (fun i => if v i = 0 then 'a' else 'b')

/-- Value of a hex digit character (junk value 0 elsewhere). -/
def hexVal (c : Char) : Fin 16 :=
  ⟨SHA256.hexDigits.indexOf c % 16, Nat.mod_lt _ (by decide)⟩

/-- The digest of the cache key of a two-letter message, read back as 64
nibbles: the map whose non-injectivity exhibits colliding cache keys. -/
def keyDigest (v : Fin 2000 → Fin 2) : Fin 64 → Fin 16 :=
  fun i => hexVal ((SHA256.sha256hex (strBytes
    (cacheContent (binMsg v) "professional".data "neutral".data))).getD i.val 'z')

/-! Theorems.  Each claim Cn of the specification is settled by one theorem
below; helper lemmas carry no claim names. -/

instance exceptDecEq {e a : Type} [DecidableEq e] [DecidableEq a] :
    DecidableEq (Except e a) := fun x y =>
  match x, y with
  | .error u, .error v =>
    if h : u = v then isTrue (by rw [h]) else isFalse (by intro hc; cases hc; exact h rfl)
  | .error _, .ok _ => isFalse (by intro hc; cases hc)
  | .ok _, .error _ => isFalse (by intro hc; cases hc)
  | .ok u, .ok v =>
    if h : u = v then isTrue (by rw [h]) else isFalse (by intro hc; cases hc; exact h rfl)

theorem isOk_ite (c : Prop) [Decidable c] (a b : List String) :
    (if c then (Except.ok a : Except String (List String)) else .ok b).isOk = true := by
  split <;> rfl

/-- C2: the rate limiter fails open — whenever the admission check aborts
because a store operation raised, the dependency swallows the error and the
request is admitted; a RateLimited rejection arises exactly from a check
that ran to a limited result; and with a fault-free store the fallible check
agrees with the pure sliding-window algorithm, so only a genuine over-limit
count produces the rejection. -/
theorem C2_rate_limiter_fail_open (f : StoreFaults) (st : RLState) (now : ℤ)
    (limit : ℕ) (period : ℤ) :
    (∀ e, check_rate_limitE f st now limit period = .error e →
      rate_limiter_dependency f st now limit period = .admitted) ∧
    (rate_limiter_dependency f st now limit period = .rateLimited ↔
      ∃ st2, check_rate_limitE f st now limit period = .ok (true, st2)) ∧
    (f.anyFault = false →
      check_rate_limitE f st now limit period = .ok (check_rate_limit st now limit period)) := by
  obtain ⟨zr, zc, za, ex⟩ := f
  by_cases hlim : limit ≤ (zremLow st.entries (now - period)).length <;>
    cases zr <;> cases zc <;> cases za <;> cases ex <;>
      simp [rate_limiter_dependency, check_rate_limitE, check_rate_limit,
        StoreFaults.anyFault, hlim]

/-- Witness for C2 at a concrete store that raises on every call: the
request is admitted. -/
theorem C2_rate_limiter_fail_open_witness :
    rate_limiter_dependency ⟨true, true, true, true⟩ ⟨[], Option.none⟩ 0 1 10 =
      .admitted :=
  (C2_rate_limiter_fail_open ⟨true, true, true, true⟩ ⟨[], Option.none⟩ 0 1 10).1
    () (by decide)

/-- C4 fails on the code: enhance calls the generative backend even for a
message of word count 1, below the claimed threshold of 5. -/
theorem C4_counterexample :
    wordCount "hi".data < 5 ∧
    (TE_enhance "hi".data .professional .neutral true (.error [])).2.length = 1 := by
  exact ⟨by decide, rfl⟩

/-- C4 amended: enhance submits the preprocessed text to the backend on
every call, with no word-count threshold and no configuration check, and the
token budget is min(3 times the message length, the literal 500), which
coincides with the configured OLLAMA_MAX_TOKENS only at its default. -/
theorem C4_amended (message : List Char) (style : EnhancementStyle)
    (tone : EnhancementTone) (ef : Bool) (backend : Except (List Char) OllamaResponse) :
    (TE_enhance message style tone ef backend).2 =
      [⟨"Enhance this message:\n\n".data ++ rule_based_preprocess message style,
        min (3 * message.length) 500⟩] := rfl

theorem lcmatch_mem {pat s r : List Char} {c : Char} (h : lcmatch pat s = some r)
    (hc : c ∈ s) : c ∈ r ∨ ∃ p ∈ pat, p.toLower = c.toLower := by
  induction pat generalizing s with
  | nil =>
    simp only [lcmatch, Option.some.injEq] at h
    subst h
    exact Or.inl hc
  | cons p ps ih =>
    cases s with
    | nil => simp [lcmatch] at h
    | cons a as =>
      simp only [lcmatch] at h
      split at h
      · rename_i heq
        rcases List.mem_cons.mp hc with rfl | hmem
        · exact Or.inr ⟨p, List.mem_cons_self p ps, heq⟩
        · rcases ih h hmem with h1 | ⟨q, hq, hq2⟩
          · exact Or.inl h1
          · exact Or.inr ⟨q, List.mem_cons_of_mem _ hq, hq2⟩
      · exact absurd h (by simp)

theorem mem_subWordGo (p0 : Char) (ps repl : List Char) {c : Char}
    (hc : ∀ p ∈ p0 :: ps, p.toLower ≠ c.toLower) :
    ∀ fuel prevWord s, c ∈ s → c ∈ subWordGo p0 ps repl fuel prevWord s := by
  intro fuel
  induction fuel with
  | zero =>
    intro prevWord s hs
    simpa [subWordGo] using hs
  | succ n ih =>
    intro prevWord s hs
    cases s with
    | nil => simp at hs
    | cons a as =>
      simp only [subWordGo]
      have hcons : c ∈ a :: subWordGo p0 ps repl n (isWordChar a) as := by
        rcases List.mem_cons.mp hs with rfl | hmem
        · exact List.mem_cons_self _ _
        · exact List.mem_cons_of_mem _ (ih _ as hmem)
      split
      · exact hcons
      · cases hm : lcmatch (p0 :: ps) (a :: as) with
        | none => exact hcons
        | some rest =>
          dsimp only
          by_cases hb : atBoundary rest = true
          · rw [if_pos hb]
            rcases lcmatch_mem hm hs with h1 | ⟨q, hq, hq2⟩
            · exact List.mem_append_right _ (ih _ rest h1)
            · exact absurd hq2 (hc q hq)
          · rw [if_neg hb]
            exact hcons

theorem mem_applyRemovals {c : Char} (pats : List (List Char)) (s : List Char)
    (hc : ∀ pat ∈ pats, ∀ p ∈ pat, p.toLower ≠ c.toLower) (hs : c ∈ s) :
    c ∈ applyRemovals pats s := by
  induction pats generalizing s with
  | nil => simpa [applyRemovals] using hs
  | cons pat rest ih =>
    have hsub : c ∈ subWord pat [] s := by
      cases pat with
      | nil => simpa [subWord] using hs
      | cons p0 ps =>
        exact mem_subWordGo p0 ps [] (hc _ (List.mem_cons_self _ _)) _ _ _ hs
    have := ih (subWord pat [] s) (fun q hq => hc q (List.mem_cons_of_mem _ hq)) hsub
    simpa [applyRemovals, List.foldl_cons] using this

theorem mem_collapseWsAux {c : Char} (hns : pyIsSpace c = false) :
    ∀ b s, c ∈ s → c ∈ collapseWsAux b s := by
  intro b s
  induction s generalizing b with
  | nil => simp
  | cons a as ih =>
    intro hs
    rcases List.mem_cons.mp hs with rfl | hmem
    · simp only [collapseWsAux, hns]
      exact List.mem_cons_self _ _
    · simp only [collapseWsAux]
      split
      · split
        · exact ih _ hmem
        · exact List.mem_cons_of_mem _ (ih _ hmem)
      · exact List.mem_cons_of_mem _ (ih _ hmem)

theorem mem_dropWhile_of_mem {c : Char} {p : Char → Bool} (hp : p c = false) :
    ∀ l : List Char, c ∈ l → c ∈ l.dropWhile p := by
  intro l
  induction l with
  | nil => simp
  | cons a as ih =>
    intro hs
    rcases List.mem_cons.mp hs with rfl | hmem
    · simp only [List.dropWhile, hp]
      exact List.mem_cons_self _ _
    · simp only [List.dropWhile]
      split
      · exact ih hmem
      · exact List.mem_cons_of_mem _ hmem

theorem mem_pyStrip {c : Char} {l : List Char} (hns : pyIsSpace c = false)
    (hs : c ∈ l) : c ∈ pyStrip l := by
  unfold pyStrip pyStripRight
  have h1 : c ∈ l.dropWhile pyIsSpace := mem_dropWhile_of_mem hns l hs
  have h2 : c ∈ (l.dropWhile pyIsSpace).reverse := List.mem_reverse.mpr h1
  have h3 := mem_dropWhile_of_mem hns _ h2
  exact List.mem_reverse.mpr h3

theorem getLastD_mem {l : List Char} (h : l ≠ []) (d : Char) : l.getLastD d ∈ l := by
  induction l with
  | nil => exact absurd rfl h
  | cons a as ih =>
    cases as with
    | nil => simp [List.getLastD]
    | cons b bs =>
      have := ih (by simp)
      simpa [List.getLastD] using Or.inr this

/-- C3 fails on the code: the message bro is non-empty after trimming, yet
the rule-based fallback reduces it to the empty string and returns it as is;
no floor restoring the trimmed original exists. -/
theorem C3_counterexample :
    pyStrip "bro".data ≠ [] ∧
    rule_based_fallback "bro".data .professional .neutral = [] := by
  exact ⟨by decide, by decide⟩

/-- C3 amended: whenever the rule-based preprocess of the message is
non-empty, the fallback result is non-empty — the capitalization and
terminal-punctuation steps keep a terminal punctuation character that the
confident-tone hedge removal cannot erase; but when the transforms reduce
the message to empty, the empty string itself is returned, with no floor. -/
theorem C3_floor (message : List Char) (style : EnhancementStyle)
    (tone : EnhancementTone) (h : rule_based_preprocess message style ≠ []) :
    rule_based_fallback message style tone ≠ [] := by
  unfold rule_based_fallback
  rcases ht : rule_based_preprocess message style with _ | ⟨c, cs⟩
  · exact absurd ht h
  · set capT : List Char := if c.isLower then c.toUpper :: cs else c :: cs with hcap
    have hcapne : capT ≠ [] := by
      rw [hcap]; split <;> simp
    have hmain : ∀ p2 : List Char, (∃ d ∈ p2, d = '.' ∨ d = '!' ∨ d = '?') →
        (if tone = .confident then
          pyStrip (collapseWs (applyRemovals hedgeWords p2)) else p2) ≠ [] := by
      intro p2 ⟨d, hdp, hdv⟩
      have hnsp : pyIsSpace d = false := by
        rcases hdv with rfl | rfl | rfl <;> decide
      have hhedge : ∀ pat ∈ hedgeWords, ∀ p ∈ pat, p.toLower ≠ d.toLower := by
        rcases hdv with rfl | rfl | rfl <;> decide
      split
      · intro hempty
        have h1 := mem_applyRemovals hedgeWords p2 hhedge hdp
        have h2 : d ∈ collapseWs (applyRemovals hedgeWords p2) :=
          mem_collapseWsAux hnsp _ _ h1
        have h3 := mem_pyStrip hnsp h2
        rw [hempty] at h3
        exact absurd h3 (List.not_mem_nil d)
      · intro hempty
        rw [hempty] at hdp
        exact absurd hdp (List.not_mem_nil d)
    -- reduce the match on the preprocess result and apply hmain
    refine hmain _ ?_
    split
    · rename_i hcond
      refine ⟨if style = .friendly ∨ tone = .enthusiastic then '!' else '.', ?_, ?_⟩
      · exact List.mem_append_right _ (by split <;> exact List.mem_singleton.mpr rfl)
      · split
        · exact Or.inr (Or.inl rfl)
        · exact Or.inl rfl
    · rename_i hcond
      rcases not_and_or.mp hcond with h1 | h2
      · exact absurd hcapne (by simpa using h1)
      · have hd : capT.getLastD ' ' ∈ ['.', '!', '?'] := not_not.mp (by simpa using h2)
        refine ⟨capT.getLastD ' ', getLastD_mem hcapne ' ', ?_⟩
        simpa using hd

/-- Witness for C3 at a concrete message whose preprocess is non-empty. -/
theorem C3_floor_witness :
    rule_based_fallback "maybe ok".data .professional .confident ≠ [] :=
  C3_floor "maybe ok".data .professional .confident (by decide)

/-- C5 fails on the code: when the backend returns exactly the rule-based
floor, enhance accepts it as the llm result with no recorded error — there
is no check that the generative output differs from the floor. -/
theorem C5_counterexample :
    rule_based_fallback "hey bro".data .professional .neutral = "Hey.".data ∧
    (TE_enhance "hey bro".data .professional .neutral true
        (.ok ⟨"Hey.".data, Option.none, Option.none⟩)).1 =
      .ok ("Hey.".data,
        ⟨"llm", "professional", "neutral", Option.none, Option.none, Option.none⟩) := by
  exact ⟨by decide, by decide⟩

/-- C5 amended: with fallback enabled, enhance never propagates a failure;
a backend error or an output that is empty, shorter than 3 characters, or
longer than 4 times the message yields the rule-based floor with method
fallback and the failure reason recorded in the metadata; any other output
is accepted as the llm result — no comparison against the floor is made. -/
theorem C5_enhance_validation (message : List Char) (style : EnhancementStyle)
    (tone : EnhancementTone) (backend : Except (List Char) OllamaResponse) :
    ((TE_enhance message style tone true backend).1.isOk = true) ∧
    (∀ e, backend = .error e →
      (TE_enhance message style tone true backend).1 =
        .ok (rule_based_fallback message style tone,
          ⟨"fallback", style.value, tone.value, some e, Option.none, Option.none⟩)) ∧
    (∀ resp, backend = .ok resp →
      ((cleanedOutput resp = [] ∨ (cleanedOutput resp).length < 3) →
        (TE_enhance message style tone true backend).1 =
          .ok (rule_based_fallback message style tone,
            ⟨"fallback", style.value, tone.value, some "LLM output too short".data,
              Option.none, Option.none⟩)) ∧
      (¬ (cleanedOutput resp = [] ∨ (cleanedOutput resp).length < 3) →
        message.length * 4 < (cleanedOutput resp).length →
        (TE_enhance message style tone true backend).1 =
          .ok (rule_based_fallback message style tone,
            ⟨"fallback", style.value, tone.value, some "LLM output too long".data,
              Option.none, Option.none⟩)) ∧
      (¬ (cleanedOutput resp = [] ∨ (cleanedOutput resp).length < 3) →
        ¬ message.length * 4 < (cleanedOutput resp).length →
        (TE_enhance message style tone true backend).1 =
          .ok (cleanedOutput resp,
            ⟨"llm", style.value, tone.value, Option.none, resp.total_duration,
              resp.eval_count⟩))) := by
  cases backend with
  | error e =>
    refine ⟨rfl, ?_, ?_⟩
    · intro e2 he
      cases he
      rfl
    · intro resp hre
      cases hre
  | ok resp =>
    refine ⟨?_, ?_, ?_⟩
    · dsimp only [TE_enhance]
      split
      · rfl
      · split <;> rfl
    · intro e2 he
      cases he
    · intro resp2 hre
      cases hre
      refine ⟨?_, ?_, ?_⟩
      · intro hshort
        dsimp only [TE_enhance]
        rw [if_pos hshort]
        rfl
      · intro hshort hlong
        dsimp only [TE_enhance]
        rw [if_neg hshort, if_pos hlong]
        rfl
      · intro hshort hlong
        dsimp only [TE_enhance]
        rw [if_neg hshort, if_neg hlong]

/-- Witness for C5 at a concrete backend error. -/
theorem C5_enhance_validation_witness :
    (TE_enhance "hey".data .professional .neutral true (.error "boom".data)).1 =
      .ok (rule_based_fallback "hey".data .professional .neutral,
        ⟨"fallback", "professional", "neutral", some "boom".data,
          Option.none, Option.none⟩) :=
  (C5_enhance_validation "hey".data .professional .neutral (.error "boom".data)).2.1
    "boom".data rfl

/-- C6: the async task lifecycle — submit answers pending after writing a
pending record; the background run writes processing and then exactly one
terminal record, completed with every result field populated and no error,
or failed with the error text and no result fields; no record sequence
outside pending, processing, terminal is ever written, so terminal states
are final and a poller can never observe a completed result together with a
populated error. -/
theorem C6_task_lifecycle (f : CacheFaults) (st : CacheStore) (userId message : List Char)
    (style : EnhancementStyle) (tone : EnhancementTone) (ef : Bool)
    (backend : Except (List Char) OllamaResponse) :
    (enhance_message_async message).responseStatus = .pending ∧
    (enhance_message_async message).initialRecord.status = .pending ∧
    validStatusSeq ((async_task_trace f st userId message style tone ef backend).map
      TaskRecord.status) = true ∧
    (async_task_trace f st userId message style tone ef backend).all recordConsistent
      = true := by
  refine ⟨rfl, rfl, ?_, ?_⟩ <;>
  · unfold async_task_trace process_enhancement_background
    cases hc : get_cached_result f st userId message style.value.data tone.value.data with
    | some cached => rfl
    | none =>
      cases he : (TE_enhance message style tone ef backend).1 with
      | error e => rfl
      | ok pr =>
        obtain ⟨enh, meta⟩ := pr
        dsimp only
        cases ha : analyze_improvements message enh style.value tone.value with
        | error e => rfl
        | ok imps => rfl

theorem check_rate_limit_fst (st : RLState) (now : ℤ) (limit : ℕ) (P : ℤ) :
    (check_rate_limit st now limit P).1 = true ↔
      limit ≤ (zremLow st.entries (now - P)).length := by
  unfold check_rate_limit
  dsimp only
  split <;> simp_all

theorem check_rate_limit_limited (st : RLState) (now : ℤ) (limit : ℕ) (P : ℤ)
    (h : limit ≤ (zremLow st.entries (now - P)).length) :
    check_rate_limit st now limit P = (true, ⟨zremLow st.entries (now - P), st.ttl⟩) := by
  unfold check_rate_limit
  rw [if_pos h]

theorem check_rate_limit_not_limited (st : RLState) (now : ℤ) (limit : ℕ) (P : ℤ)
    (h : ¬ limit ≤ (zremLow st.entries (now - P)).length) :
    check_rate_limit st now limit P =
      (false, ⟨zaddSingle (zremLow st.entries (now - P)) now, some (P + 10)⟩) := by
  unfold check_rate_limit
  rw [if_neg h]

theorem runRequests_append (limit : ℕ) (P : ℤ) (xs ys : List ℤ) :
    ∀ st : RLState,
      runRequests limit P st (xs ++ ys) =
        ((runRequests limit P st xs).1 ++
          (runRequests limit P (runRequests limit P st xs).2 ys).1,
         (runRequests limit P (runRequests limit P st xs).2 ys).2) := by
  induction xs with
  | nil => intro st; simp [runRequests]
  | cons x xs ih =>
    intro st
    simp only [List.cons_append, runRequests, List.append_eq, ih]

theorem runRequests_admits (limit : ℕ) (P : ℤ) :
    ∀ (ts ent : List ℤ) (ttl : Option ℤ),
      (∀ t ∈ ts, ∀ e ∈ ent, e < t ∧ t - e < P) →
      ts.Pairwise (fun a b => a < b ∧ b - a < P) →
      ent.length + ts.length ≤ limit →
      (runRequests limit P ⟨ent, ttl⟩ ts).1 = List.replicate ts.length false ∧
      (runRequests limit P ⟨ent, ttl⟩ ts).2.entries = ent ++ ts := by
  intro ts
  induction ts with
  | nil =>
    intro ent ttl _ _ _
    simp [runRequests]
  | cons t ts ih =>
    intro ent ttl hwin hpw hcount
    have hkeep : zremLow ent (t - P) = ent := by
      apply List.filter_eq_self.mpr
      intro e he
      have h2 := (hwin t (List.mem_cons_self t ts) e he).2
      simpa using by omega
    have hlt : ¬ limit ≤ ent.length := by
      simp only [List.length_cons] at hcount
      omega
    have hnotmem : t ∉ ent := by
      intro hmem
      have := (hwin t (List.mem_cons_self t ts) t hmem).1
      omega
    have hstep : check_rate_limit ⟨ent, ttl⟩ t limit P =
        (false, ⟨ent ++ [t], some (P + 10)⟩) := by
      have h1 := check_rate_limit_not_limited ⟨ent, ttl⟩ t limit P (by dsimp only; rw [hkeep]; exact hlt)
      rw [h1]
      dsimp only
      rw [hkeep]
      unfold zaddSingle
      rw [if_neg hnotmem]
    obtain ⟨hpwh, hpwt⟩ := List.pairwise_cons.mp hpw
    have hwin2 : ∀ u ∈ ts, ∀ e ∈ ent ++ [t], e < u ∧ u - e < P := by
      intro u hu e he
      rcases List.mem_append.mp he with h1 | h2
      · exact hwin u (List.mem_cons_of_mem _ hu) e h1
      · rcases List.mem_singleton.mp h2 with rfl
        exact hpwh u hu
    have hcount2 : (ent ++ [t]).length + ts.length ≤ limit := by
      simp only [List.length_append, List.length_cons] at hcount ⊢
      simp only [List.length_nil]
      omega
    have hih := ih (ent ++ [t]) (some (P + 10)) hwin2 hpwt hcount2
    simp only [runRequests, hstep]
    refine ⟨?_, ?_⟩
    · rw [hih.1]
      simp [List.replicate_succ]
    · rw [hih.2]
      simp

/-- C1: one admission check purges entries scored at or below now - period,
counts the survivors, reports limited without recording when the count
reached the limit, and otherwise records the request at score now, sets the
key expiry to period + 10 seconds and reports not limited; consequently, for
N + 1 strictly ordered requests within one period against an initially
absent key, requests 1..N are admitted, request N + 1 is rejected, and a
further request arriving once the period has elapsed past every recorded
request is admitted again. -/
theorem C1_sliding_window (N : ℕ) (P : ℤ) (ts : List ℤ) (tr : ℤ)
    (hN : 1 ≤ N) (hlen : ts.length = N + 1)
    (hpw : ts.Pairwise (fun a b => a < b ∧ b - a < P))
    (hrec : ∀ t ∈ ts, t + P ≤ tr) :
    (∀ (st : RLState) (now : ℤ),
      ((check_rate_limit st now N P).1 = true ↔
        N ≤ (zremLow st.entries (now - P)).length) ∧
      ((check_rate_limit st now N P).1 = true →
        (check_rate_limit st now N P).2 = ⟨zremLow st.entries (now - P), st.ttl⟩) ∧
      ((check_rate_limit st now N P).1 = false →
        (check_rate_limit st now N P).2 =
          ⟨zaddSingle (zremLow st.entries (now - P)) now, some (P + 10)⟩)) ∧
    (runRequests N P ⟨[], Option.none⟩ (ts ++ [tr])).1 =
      List.replicate N false ++ [true, false] := by
  constructor
  · intro st now
    refine ⟨check_rate_limit_fst st now N P, ?_, ?_⟩
    · intro h
      rw [check_rate_limit_limited st now N P ((check_rate_limit_fst st now N P).mp h)]
    · intro h
      have hn : ¬ N ≤ (zremLow st.entries (now - P)).length := by
        intro hcon
        rw [(check_rate_limit_limited st now N P hcon)] at h
        simp at h
      rw [check_rate_limit_not_limited st now N P hn]
  · have hne : ts ≠ [] := by
      intro h
      rw [h] at hlen
      simp at hlen
    obtain ⟨tinit, tlast, hsplit⟩ : ∃ xs x, ts = xs ++ [x] :=
      ⟨ts.dropLast, ts.getLast hne, (List.dropLast_append_getLast hne).symm⟩
    have hleninit : tinit.length = N := by
      rw [hsplit] at hlen
      simp only [List.length_append, List.length_cons, List.length_nil] at hlen
      omega
    have hpw2 := hpw
    rw [hsplit] at hpw2
    have hpwsplit := List.pairwise_append.mp hpw2
    have hpwinit : tinit.Pairwise (fun a b => a < b ∧ b - a < P) := hpwsplit.1
    have hlastrel : ∀ a ∈ tinit, a < tlast ∧ tlast - a < P :=
      fun a ha => hpwsplit.2.2 a ha tlast (List.mem_singleton.mpr rfl)
    have hrun := runRequests_admits N P tinit [] Option.none
      (by intro t _ e he; simp at he) hpwinit (by simp; omega)
    set st2 := (runRequests N P ⟨[], Option.none⟩ tinit).2 with hst2
    have hentries : st2.entries = tinit := by
      have := hrun.2
      simpa using this
    have hkeep : zremLow tinit (tlast - P) = tinit := by
      apply List.filter_eq_self.mpr
      intro e he
      have h2 := (hlastrel e he).2
      simpa using by omega
    have hchecklast : check_rate_limit st2 tlast N P =
        (true, ⟨zremLow st2.entries (tlast - P), st2.ttl⟩) :=
      check_rate_limit_limited st2 tlast N P
        (by rw [hentries, hkeep, hleninit])
    have hpurge : zremLow tinit (tr - P) = [] := by
      apply List.filter_eq_nil_iff.mpr
      intro e he
      have h1 : e + P ≤ tr := hrec e (by rw [hsplit]; exact List.mem_append_left _ he)
      simpa using by omega
    have hst3e : (⟨zremLow st2.entries (tlast - P), st2.ttl⟩ : RLState).entries = tinit := by
      dsimp only
      rw [hentries, hkeep]
    have hcheckrec : (check_rate_limit ⟨zremLow st2.entries (tlast - P), st2.ttl⟩ tr N P).1
        = false := by
      have hz : zremLow (⟨zremLow st2.entries (tlast - P), st2.ttl⟩ : RLState).entries
          (tr - P) = [] := by
        rw [hst3e, hpurge]
      have hn : ¬ N ≤ (zremLow
          (⟨zremLow st2.entries (tlast - P), st2.ttl⟩ : RLState).entries (tr - P)).length := by
        rw [hz]
        simp
        omega
      rw [check_rate_limit_not_limited _ tr N P hn]
    have hfirst : (runRequests N P ⟨[], Option.none⟩ tinit).1 = List.replicate N false := by
      rw [hrun.1, hleninit]
    have hsecondrun :
        (runRequests N P st2 [tlast, tr]).1 = [true, false] := by
      simp only [runRequests, hchecklast]
      rw [hcheckrec]
    have hassoc : (tinit ++ [tlast]) ++ [tr] = tinit ++ [tlast, tr] := by
      simp
    rw [hsplit, hassoc, runRequests_append, ← hst2, hfirst, hsecondrun]

/-- Witness for C1: limit 2, period 10, three requests at times 0, 1, 2 and
a later request at time 12. -/
theorem C1_sliding_window_witness :
    (runRequests 2 10 ⟨[], Option.none⟩ ([0, 1, 2] ++ [12])).1 =
      List.replicate 2 false ++ [true, false] :=
  (C1_sliding_window 2 10 [0, 1, 2] 12 (by decide) (by decide) (by decide)
    (by decide)).2

/-- C9 fails on the code: with an empty original and the non-empty enhanced
string x, analyze_improvements returns normally instead of raising. -/
theorem C9_counterexample :
    analyze_improvements [] "x".data "professional" "neutral" =
      .ok ["Expanded with more detail"] := by decide

/-- C9 amended: analyze_improvements raises whenever the enhanced string is
empty; it returns normally whenever both strings are non-empty; and with an
empty original and non-empty enhanced it raises exactly when the enhanced
string starts with an uppercase letter or ends in terminal punctuation. -/
theorem C9_amended :
    (∀ original : List Char, ∀ style tone : String,
      analyze_improvements original [] style tone = .error "IndexError") ∧
    (∀ original enhanced : List Char, ∀ style tone : String,
      original ≠ [] → enhanced ≠ [] →
      (analyze_improvements original enhanced style tone).isOk = true) ∧
    (∀ e0 : Char, ∀ es : List Char, ∀ style tone : String,
      (analyze_improvements [] (e0 :: es) style tone).isOk = false ↔
        (e0.isUpper = true ∨ (e0 :: es).getLastD ' ' ∈ ['.', '!', '?'])) := by
  refine ⟨fun original style tone => rfl, ?_, ?_⟩
  · intro original enhanced style tone ho he
    obtain ⟨o0, os, rfl⟩ : ∃ o0 os, original = o0 :: os := by
      cases original with
      | nil => exact absurd rfl ho
      | cons a b => exact ⟨a, b, rfl⟩
    obtain ⟨e0, es, rfl⟩ : ∃ e0 es, enhanced = e0 :: es := by
      cases enhanced with
      | nil => exact absurd rfl he
      | cons a b => exact ⟨a, b, rfl⟩
    obtain ⟨x, hx⟩ := Option.isSome_iff_exists.mp
      (List.getLast?_isSome.mpr (List.cons_ne_nil o0 os))
    dsimp only [analyze_improvements]
    by_cases hu : e0.isUpper = true
    · rw [if_pos hu]
      dsimp only
      by_cases hl : (e0 :: es).getLastD ' ' ∈ ['.', '!', '?']
      · rw [if_pos hl, hx]
        dsimp only
        exact isOk_ite _ _ _
      · rw [if_neg hl]
        dsimp only
        exact isOk_ite _ _ _
    · rw [if_neg hu]
      dsimp only
      by_cases hl : (e0 :: es).getLastD ' ' ∈ ['.', '!', '?']
      · rw [if_pos hl, hx]
        dsimp only
        exact isOk_ite _ _ _
      · rw [if_neg hl]
        dsimp only
        exact isOk_ite _ _ _
  · intro e0 es style tone
    dsimp only [analyze_improvements]
    by_cases hu : e0.isUpper = true
    · rw [if_pos hu]
      dsimp only
      exact iff_of_true rfl (Or.inl hu)
    · rw [if_neg hu]
      dsimp only
      by_cases hl : (e0 :: es).getLastD ' ' ∈ ['.', '!', '?']
      · rw [if_pos hl]
        dsimp only [List.getLast?]
        exact iff_of_true rfl (Or.inr hl)
      · rw [if_neg hl]
        dsimp only
        exact iff_of_false (by rw [isOk_ite]; simp) (not_or.mpr ⟨hu, hl⟩)

theorem dropWhile_length_le (p : Char → Bool) (l : List Char) :
    (l.dropWhile p).length ≤ l.length := by
  induction l with
  | nil => simp
  | cons c cs ih =>
    simp only [List.dropWhile]
    split
    · exact le_trans ih (by simp)
    · simp

theorem pyStrip_length_le (l : List Char) : (pyStrip l).length ≤ l.length := by
  unfold pyStrip pyStripRight
  have h1 := dropWhile_length_le pyIsSpace l
  have h2 := dropWhile_length_le pyIsSpace (l.dropWhile pyIsSpace).reverse
  simp only [List.length_reverse] at h1 h2 ⊢
  omega

theorem dropWhile_head_false (p : Char → Bool) :
    ∀ (l : List Char) (c : Char) (cs : List Char), l.dropWhile p = c :: cs →
      p c = false := by
  intro l
  induction l with
  | nil => intro c cs h; simp [List.dropWhile] at h
  | cons a as ih =>
    intro c cs h
    simp only [List.dropWhile] at h
    split at h
    · exact ih c cs h
    · rename_i hpa
      obtain ⟨rfl, -⟩ := List.cons.injEq a as c cs ▸ h
      simpa using hpa

theorem dropWhile_eq_self_of_head (p : Char → Bool) (l : List Char)
    (h : ∀ c cs, l = c :: cs → p c = false) : l.dropWhile p = l := by
  cases l with
  | nil => rfl
  | cons a as => simp [List.dropWhile, h a as rfl]

theorem dropWhile_isSuffix (p : Char → Bool) (l : List Char) :
    ∃ t, t ++ l.dropWhile p = l := by
  induction l with
  | nil => exact ⟨[], rfl⟩
  | cons a as ih =>
    by_cases hp : p a = true
    · obtain ⟨t, ht⟩ := ih
      refine ⟨a :: t, ?_⟩
      simp [List.dropWhile, hp, ht]
    · exact ⟨[], by simp [List.dropWhile, hp]⟩

theorem pyStrip_idem (l : List Char) : pyStrip (pyStrip l) = pyStrip l := by
  unfold pyStrip pyStripRight
  set a := l.dropWhile pyIsSpace with ha
  set b := a.reverse.dropWhile pyIsSpace with hb
  have hbhead : ∀ c cs, b.reverse = c :: cs → pyIsSpace c = false := by
    intro c cs hc
    obtain ⟨t, ht⟩ := dropWhile_isSuffix pyIsSpace a.reverse
    rw [← hb] at ht
    have haeq : a = c :: (cs ++ t.reverse) := by
      have h2 := congrArg List.reverse ht
      simp only [List.reverse_append, List.reverse_reverse] at h2
      rw [← h2, hc]
      simp
    exact dropWhile_head_false pyIsSpace l c _ (by rw [← ha]; exact haeq)
  have h1 : b.reverse.dropWhile pyIsSpace = b.reverse :=
    dropWhile_eq_self_of_head pyIsSpace b.reverse hbhead
  have h2 : b.dropWhile pyIsSpace = b := by
    apply dropWhile_eq_self_of_head
    intro c cs hc
    exact dropWhile_head_false pyIsSpace a.reverse c cs (by rw [← hb]; exact hc)
  rw [h1, List.reverse_reverse, h2]

theorem batchStep_original (f : CacheFaults) (userId : List Char)
    (style : EnhancementStyle) (tone : EnhancementTone) (ef : Bool)
    (oracle : List Char → Except (List Char) OllamaResponse) (st : CacheStore)
    (m : List Char) :
    (batchStep f userId style tone ef oracle st m).1.original = m := by
  unfold batchStep
  split
  · rfl
  · cases get_cached_result f st userId m style.value.data tone.value.data with
    | some cached => rfl
    | none =>
      dsimp only
      cases (TE_enhance m style tone ef (oracle m)).1 with
      | error e => rfl
      | ok pr =>
        obtain ⟨enh, meta⟩ := pr
        dsimp only
        cases analyze_improvements m enh style.value tone.value with
        | error e => rfl
        | ok imps => rfl

theorem batchStep_short (f : CacheFaults) (userId : List Char)
    (style : EnhancementStyle) (tone : EnhancementTone) (ef : Bool)
    (oracle : List Char → Except (List Char) OllamaResponse) (st : CacheStore)
    (m : List Char) (h : m = [] ∨ (pyStrip m).length < 3) :
    batchStep f userId style tone ef oracle st m =
      (⟨m, m, Option.none, Option.none, some "Message too short".data, false⟩,
        false, st) := by
  unfold batchStep
  rw [if_pos h]

theorem batchLoop_spec (f : CacheFaults) (userId : List Char) (style : EnhancementStyle)
    (tone : EnhancementTone) (ef : Bool)
    (oracle : List Char → Except (List Char) OllamaResponse) :
    ∀ (msgs : List (List Char)) (st : CacheStore),
      (batchLoop f userId style tone ef oracle st msgs).1.length = msgs.length ∧
      (batchLoop f userId style tone ef oracle st msgs).2.1 +
        (batchLoop f userId style tone ef oracle st msgs).2.2.1 = msgs.length ∧
      (batchLoop f userId style tone ef oracle st msgs).1.map BatchItem.original
        = msgs := by
  intro msgs
  induction msgs with
  | nil => intro st; simp [batchLoop]
  | cons m rest ih =>
    intro st
    obtain ⟨h1, h2, h3⟩ := ih ((batchStep f userId style tone ef oracle st m).2.2)
    simp only [batchLoop]
    refine ⟨?_, ?_, ?_⟩
    · simp [h1]
    · dsimp only
      split <;> simp only [List.length_cons] <;> omega
    · simp [h3, batchStep_original]

theorem batchLoop_append (f : CacheFaults) (userId : List Char)
    (style : EnhancementStyle) (tone : EnhancementTone) (ef : Bool)
    (oracle : List Char → Except (List Char) OllamaResponse) :
    ∀ (xs ys : List (List Char)) (st : CacheStore),
      (batchLoop f userId style tone ef oracle st (xs ++ ys)).1 =
        (batchLoop f userId style tone ef oracle st xs).1 ++
        (batchLoop f userId style tone ef oracle
          (batchLoop f userId style tone ef oracle st xs).2.2.2 ys).1 := by
  intro xs
  induction xs with
  | nil => intro ys st; simp [batchLoop]
  | cons m rest ih =>
    intro ys st
    simp only [List.cons_append, batchLoop, List.append_eq, ih]

theorem stripSurvivors_eq_map {msgs : List (List Char)}
    (h : ∀ m ∈ msgs, pyStrip m ≠ []) :
    stripSurvivors msgs = msgs.map pyStrip := by
  induction msgs with
  | nil => rfl
  | cons m rest ih =>
    unfold stripSurvivors
    rw [List.filterMap_cons, if_neg (h m (List.mem_cons_self m rest))]
    dsimp only
    rw [List.map_cons]
    have := ih (fun x hx => h x (List.mem_cons_of_mem _ hx))
    unfold stripSurvivors at this
    rw [this]

/-- C10: batch request validation silently drops every message that is
empty after stripping and strips each survivor, so the processed list, the
results list and the response total all equal the survivor count — possibly
smaller than the number of submitted messages — and every produced result
originates from a survivor, with no per-message error reported for a
dropped entry. -/
theorem C10_batch_validation_drops (f : CacheFaults) (st : CacheStore)
    (userId : List Char) (msgs : List (List Char)) (style : EnhancementStyle)
    (tone : EnhancementTone) (ef : Bool)
    (oracle : List Char → Except (List Char) OllamaResponse)
    (hne : msgs ≠ []) (hlen : msgs.length ≤ 5) :
    validate_messages msgs = .ok (stripSurvivors msgs) ∧
    (stripSurvivors msgs).length ≤ msgs.length ∧
    ∀ resp st2,
      enhance_messages_batch f st userId msgs style tone ef oracle = .ok (resp, st2) →
      resp.total = (stripSurvivors msgs).length ∧
      resp.results.length = (stripSurvivors msgs).length ∧
      resp.results.map BatchItem.original = stripSurvivors msgs := by
  have hval : validate_messages msgs = .ok (stripSurvivors msgs) := by
    unfold validate_messages
    rw [if_neg hne, if_neg (by omega)]
  refine ⟨hval, ?_, ?_⟩
  · unfold stripSurvivors
    exact List.length_filterMap_le _ _
  · intro resp st2 hbatch
    unfold enhance_messages_batch at hbatch
    rw [hval] at hbatch
    dsimp only at hbatch
    obtain ⟨hspec1, hspec2, hspec3⟩ :=
      batchLoop_spec f userId style tone ef oracle (stripSurvivors msgs) st
    injection hbatch with hpair
    injection hpair with hresp hst2
    subst hresp
    exact ⟨hspec1, hspec1, hspec3⟩

/-- Witness for C10: a five-message batch with one whitespace-only message
validates to four survivors. -/
theorem C10_batch_validation_drops_witness :
    validate_messages c10msgs = .ok (stripSurvivors c10msgs) ∧
    (stripSurvivors c10msgs).length = 4 ∧ c10msgs.length = 5 :=
  ⟨(C10_batch_validation_drops ⟨true, true⟩ [] "u".data c10msgs .professional .neutral
      true (fun _ => .error "down".data) (by decide) (by decide)).1,
   by decide, by decide⟩

/-- C8 fails on the code: a five-message batch whose short message has
length 0 < 3 returns only four results, because request validation drops
the empty message instead of passing it to the loop. -/
theorem C8_counterexample :
    c8msgs.length = 5 ∧ ([] : List Char).length < 3 ∧ ([] : List Char) ∈ c8msgs ∧
    batchTotalOf (enhance_messages_batch ⟨true, true⟩ [] "u".data c8msgs .professional
      .neutral true (fun _ => .error "down".data)) = some 4 := by
  exact ⟨by decide, by decide, by decide, by decide⟩

/-- C8 amended: for a five-message batch whose one short message is
non-empty after trimming but shorter than 3 characters, and whose other
four messages are at least 3 characters after trimming, the endpoint
returns 5 results with successful + failed = total = 5; the short
message yields, at its position, an item marked Message too short whose
enhanced text equals its (trimmed) original; and every other item carries
an original of length at least 3 that the loop does not reject as too
short.  If the short message were empty after trimming it would be dropped
by validation instead and only four results would return. -/
theorem C8_batch_short_message (f : CacheFaults) (st : CacheStore) (userId : List Char)
    (pre post : List (List Char)) (shortM : List Char) (style : EnhancementStyle)
    (tone : EnhancementTone) (ef : Bool)
    (oracle : List Char → Except (List Char) OllamaResponse)
    (hcount : pre.length + post.length = 4)
    (hshortne : pyStrip shortM ≠ [])
    (hshortlen : (pyStrip shortM).length < 3)
    (hothers : ∀ m ∈ pre ++ post, 3 ≤ (pyStrip m).length) :
    ∀ resp st2,
      enhance_messages_batch f st userId (pre ++ shortM :: post) style tone ef oracle =
        .ok (resp, st2) →
      resp.total = 5 ∧
      resp.results.length = 5 ∧
      resp.successful + resp.failed = 5 ∧
      (∃ before after, resp.results =
          before ++ (⟨pyStrip shortM, pyStrip shortM, Option.none, Option.none,
            some "Message too short".data, false⟩ :: after) ∧
          before.length = pre.length) ∧
      (∀ it ∈ resp.results, it.original = pyStrip shortM ∨
        (3 ≤ it.original.length ∧
          ¬(it.original = [] ∨ (pyStrip it.original).length < 3))) := by
  intro resp st2 hbatch
  have hmsglen : (pre ++ shortM :: post).length = 5 := by
    simp only [List.length_append, List.length_cons]
    omega
  have hnodrop : ∀ m ∈ pre ++ shortM :: post, pyStrip m ≠ [] := by
    intro m hm
    rcases List.mem_append.mp hm with h1 | h2
    · have := hothers m (List.mem_append_left _ h1)
      intro hcon
      rw [hcon] at this
      simp at this
    · rcases List.mem_cons.mp h2 with rfl | h3
      · exact hshortne
      · have := hothers m (List.mem_append_right _ h3)
        intro hcon
        rw [hcon] at this
        simp at this
  have hsurv : stripSurvivors (pre ++ shortM :: post) =
      pre.map pyStrip ++ pyStrip shortM :: post.map pyStrip := by
    rw [stripSurvivors_eq_map hnodrop]
    simp
  have hsurvlen : (stripSurvivors (pre ++ shortM :: post)).length = 5 := by
    rw [hsurv]
    simp only [List.length_append, List.length_cons, List.length_map]
    omega
  have hval : validate_messages (pre ++ shortM :: post) =
      .ok (stripSurvivors (pre ++ shortM :: post)) := by
    unfold validate_messages
    rw [if_neg (by simp), if_neg (by omega)]
  unfold enhance_messages_batch at hbatch
  rw [hval] at hbatch
  dsimp only at hbatch
  injection hbatch with hpair
  injection hpair with hresp hst2
  subst hresp
  obtain ⟨hspec1, hspec2, hspec3⟩ :=
    batchLoop_spec f userId style tone ef oracle
      (stripSurvivors (pre ++ shortM :: post)) st
  refine ⟨?_, ?_, ?_, ?_, ?_⟩
  · dsimp only
    rw [hspec1, hsurvlen]
  · dsimp only
    rw [hspec1, hsurvlen]
  · dsimp only
    rw [← hsurvlen]
    exact hspec2
  · dsimp only
    rw [hsurv, batchLoop_append]
    refine ⟨(batchLoop f userId style tone ef oracle st (pre.map pyStrip)).1, ?_, ?_, ?_⟩
    · exact (batchLoop f userId style tone ef oracle
        (batchStep f userId style tone ef oracle
          (batchLoop f userId style tone ef oracle st (pre.map pyStrip)).2.2.2
          (pyStrip shortM)).2.2
        (post.map pyStrip)).1
    · have hshort2 : pyStrip shortM = [] ∨ (pyStrip (pyStrip shortM)).length < 3 :=
        Or.inr (by have := pyStrip_length_le (pyStrip shortM); omega)
      simp only [batchLoop]
      rw [batchStep_short _ _ _ _ _ _ _ _ hshort2]
    · exact (batchLoop_spec f userId style tone ef oracle (pre.map pyStrip) st).1.trans
        (List.length_map _ _)
  · intro it hit
    dsimp only at hit
    have hmem : it.original ∈ stripSurvivors (pre ++ shortM :: post) := by
      rw [← hspec3]
      exact List.mem_map_of_mem _ hit
    rw [hsurv] at hmem
    rcases List.mem_append.mp hmem with h1 | h2
    · obtain ⟨m, hm, hmo⟩ := List.mem_map.mp h1
      right
      have h3 := hothers m (List.mem_append_left _ hm)
      rw [← hmo]
      refine ⟨h3, ?_⟩
      rw [pyStrip_idem]
      push_neg
      refine ⟨?_, by omega⟩
      intro hcon
      rw [hcon] at h3
      simp at h3
    · rcases List.mem_cons.mp h2 with heq | h3
      · exact Or.inl heq
      · obtain ⟨m, hm, hmo⟩ := List.mem_map.mp h3
        right
        have h4 := hothers m (List.mem_append_right _ hm)
        rw [← hmo]
        refine ⟨h4, ?_⟩
        rw [pyStrip_idem]
        push_neg
        refine ⟨?_, by omega⟩
        intro hcon
        rw [hcon] at h4
        simp at h4

/-- Witness for C8 at a concrete batch with the short message hi. -/
theorem C8_batch_short_message_witness :
    batchTotalOf (enhance_messages_batch ⟨true, true⟩ [] "u".data
      (["hello there".data, "good morning".data] ++
        "hi".data :: ["see you soon".data, "fine thanks".data])
      .professional .neutral true (fun _ => .error "down".data)) = some 5 := by
  cases hb : enhance_messages_batch ⟨true, true⟩ [] "u".data
      (["hello there".data, "good morning".data] ++
        "hi".data :: ["see you soon".data, "fine thanks".data])
      .professional .neutral true (fun _ => .error "down".data) with
  | error e =>
    have hok : (enhance_messages_batch ⟨true, true⟩ [] "u".data
        (["hello there".data, "good morning".data] ++
          "hi".data :: ["see you soon".data, "fine thanks".data])
        .professional .neutral true (fun _ => .error "down".data)).isOk = true := by decide
    rw [hb] at hok
    simp [Except.isOk, Except.toBool] at hok
  | ok p =>
    have h := (C8_batch_short_message ⟨true, true⟩ [] "u".data
      ["hello there".data, "good morning".data] ["see you soon".data, "fine thanks".data]
      "hi".data .professional .neutral true (fun _ => .error "down".data)
      (by decide) (by decide) (by decide) (by decide)) p.1 p.2 (by rw [hb])
    simp only [batchTotalOf, hb]
    rw [h.1]

/-- Witness for C9 amended at concrete non-empty strings. -/
theorem C9_amended_witness :
    (analyze_improvements "ab".data "cd".data "professional" "neutral").isOk = true :=
  C9_amended.2.1 "ab".data "cd".data "professional" "neutral" (by decide) (by decide)

theorem beBytes_length (k n : ℕ) : (SHA256.beBytes k n).length = k := by
  induction k generalizing n with
  | zero => rfl
  | succ k ih => simp [SHA256.beBytes, ih]

theorem regsBytes_length (r : SHA256.Regs) : (SHA256.regsBytes r).length = 32 := by
  simp [SHA256.regsBytes, beBytes_length]

theorem hexOfBytes_length (bs : List Nat) :
    (SHA256.hexOfBytes bs).length = 2 * bs.length := by
  induction bs with
  | nil => rfl
  | cons b rest ih =>
    have hsplit : SHA256.hexOfBytes (b :: rest) =
        SHA256.byteHex b ++ SHA256.hexOfBytes rest := by
      simp [SHA256.hexOfBytes]
    rw [hsplit, List.length_append, ih]
    have hb : (SHA256.byteHex b).length = 2 := rfl
    rw [hb]
    simp only [List.length_cons]
    omega

theorem sha256hex_length (msg : List ℕ) : (SHA256.sha256hex msg).length = 64 := by
  simp [SHA256.sha256hex, hexOfBytes_length, regsBytes_length]

theorem hexChar_mem {n : ℕ} (h : n < 16) : SHA256.hexChar n ∈ SHA256.hexDigits := by
  have hall : ∀ m < 16, SHA256.hexChar m ∈ SHA256.hexDigits := by decide
  exact hall n h

theorem sha256hex_mem (msg : List ℕ) :
    ∀ c ∈ SHA256.sha256hex msg, c ∈ SHA256.hexDigits := by
  intro c hc
  simp only [SHA256.sha256hex, SHA256.hexOfBytes, List.mem_flatten, List.mem_map] at hc
  obtain ⟨l, ⟨b, -, rfl⟩, hcl⟩ := hc
  simp only [SHA256.byteHex, List.mem_cons, List.not_mem_nil, or_false] at hcl
  rcases hcl with rfl | rfl
  · exact hexChar_mem (Nat.mod_lt _ (by omega))
  · exact hexChar_mem (Nat.mod_lt _ (by omega))

theorem hexVal_inj_on :
    ∀ c ∈ SHA256.hexDigits, ∀ d ∈ SHA256.hexDigits, hexVal c = hexVal d → c = d := by
  decide

theorem hex_list_ext {l1 l2 : List Char} (h1 : l1.length = 64) (h2 : l2.length = 64)
    (hm1 : ∀ c ∈ l1, c ∈ SHA256.hexDigits) (hm2 : ∀ c ∈ l2, c ∈ SHA256.hexDigits)
    (h : ∀ i : Fin 64, hexVal (l1.getD i.val (Char.ofNat 122)) =
      hexVal (l2.getD i.val (Char.ofNat 122))) : l1 = l2 := by
  apply List.ext_getElem (by omega)
  intro i hi1 hi2
  have hfin : i < 64 := by omega
  have hp := h ⟨i, hfin⟩
  rw [List.getD_eq_getElem _ _ hi1, List.getD_eq_getElem _ _ hi2] at hp
  exact hexVal_inj_on _ (hm1 _ (List.getElem_mem hi1)) _ (hm2 _ (List.getElem_mem hi2)) hp

theorem append_colon_inj : ∀ {a b x y : List Char},
    (Char.ofNat 58) ∉ a → (Char.ofNat 58) ∉ b →
    a ++ (Char.ofNat 58) :: x = b ++ (Char.ofNat 58) :: y → a = b ∧ x = y := by
  intro a
  induction a with
  | nil =>
    intro b x y _ hb h
    cases b with
    | nil => simpa using h
    | cons d ds =>
      simp only [List.nil_append, List.cons_append, List.cons.injEq] at h
      obtain ⟨h1, -⟩ := h
      exact absurd (h1 ▸ List.mem_cons_self d ds) hb
  | cons c cs ih =>
    intro b x y ha hb h
    cases b with
    | nil =>
      simp only [List.nil_append, List.cons_append, List.cons.injEq] at h
      obtain ⟨h1, -⟩ := h
      exact absurd (h1 ▸ List.mem_cons_self c cs) ha
    | cons d ds =>
      simp only [List.cons_append, List.cons.injEq] at h
      obtain ⟨rfl, h2⟩ := h
      have hrest := ih (fun hmem => ha (List.mem_cons_of_mem _ hmem))
        (fun hmem => hb (List.mem_cons_of_mem _ hmem)) h2
      exact ⟨by rw [hrest.1], hrest.2⟩

theorem binMsg_chars {v : Fin 2000 → Fin 2} {c : Char} (h : c ∈ binMsg v) :
    c = 'a' ∨ c = 'b' := by
  simp only [binMsg, List.mem_ofFn] at h
  obtain ⟨i, hi⟩ := h
  dsimp only at hi
  split at hi
  · exact Or.inl hi.symm
  · exact Or.inr hi.symm

theorem binMsg_getD (u : Fin 2000 → Fin 2) (i : Fin 2000) :
    (binMsg u).getD i.val 'x' = if u i = 0 then 'a' else 'b' := by
  unfold binMsg
  rw [List.getD_eq_getElem _ _ (by rw [List.length_ofFn]; exact i.isLt)]
  rw [List.getElem_ofFn]

theorem binMsg_inj {v w : Fin 2000 → Fin 2} (h : binMsg v = binMsg w) : v = w := by
  funext i
  have hget := congrArg (fun l : List Char => l.getD i.val 'x') h
  dsimp only at hget
  rw [binMsg_getD, binMsg_getD] at hget
  by_cases hv : v i = 0 <;> by_cases hw : w i = 0
  · rw [hv, hw]
  · rw [if_pos hv, if_neg hw] at hget
    exact absurd hget (by decide)
  · rw [if_neg hv, if_pos hw] at hget
    exact absurd hget (by decide)
  · have h1 := (v i).isLt
    have h2 := (w i).isLt
    have hv0 : (v i).val ≠ 0 := fun hc => hv (Fin.ext hc)
    have hw0 : (w i).val ≠ 0 := fun hc => hw (Fin.ext hc)
    apply Fin.ext
    omega

theorem pyStrip_eq_self_of_no_space {l : List Char}
    (h : ∀ c ∈ l, pyIsSpace c = false) : pyStrip l = l := by
  unfold pyStrip pyStripRight
  have h1 : l.dropWhile pyIsSpace = l :=
    dropWhile_eq_self_of_head pyIsSpace l
      (fun c cs hc => h c (by rw [hc]; exact List.mem_cons_self c cs))
  rw [h1]
  have h2 : l.reverse.dropWhile pyIsSpace = l.reverse :=
    dropWhile_eq_self_of_head pyIsSpace l.reverse
      (fun c cs hc => h c (List.mem_reverse.mp
        (by rw [hc]; exact List.mem_cons_self c cs)))
  rw [h2, List.reverse_reverse]

theorem enhance_message_hit (st : CacheStore) (userId message : List Char)
    (style : EnhancementStyle) (tone : EnhancementTone) (ef : Bool)
    (backend : Except (List Char) OllamaResponse) (val : CacheVal)
    (h : storeGet st (build_cache_key userId message style.value.data tone.value.data)
      = some val) :
    enhance_message CacheFaults.none st userId message style tone ef backend =
      (.ok ⟨message, val.enhanced, style.value, tone.value, val.improvements,
        val.metadata, true⟩, st) := by
  unfold enhance_message
  have hget : get_cached_result CacheFaults.none st userId message style.value.data
      tone.value.data = some val := by
    simpa [get_cached_result, CacheFaults.none] using h
  rw [hget]

theorem enhance_message_fresh (st : CacheStore) (userId message : List Char)
    (style : EnhancementStyle) (tone : EnhancementTone) (ef : Bool)
    (backend : Except (List Char) OllamaResponse) (r1 : EnhanceResponse)
    (hmiss : storeGet st (build_cache_key userId message style.value.data tone.value.data)
      = Option.none)
    (hfirst : (enhance_message CacheFaults.none st userId message style tone ef backend).1
      = .ok r1) :
    r1.original = message ∧ r1.cached = false ∧
    (enhance_message CacheFaults.none st userId message style tone ef backend).2 =
      storeSet st (build_cache_key userId message style.value.data tone.value.data)
        ⟨r1.enhanced, r1.improvements, r1.metadata⟩ := by
  have hget : get_cached_result CacheFaults.none st userId message style.value.data
      tone.value.data = Option.none := by
    simpa [get_cached_result, CacheFaults.none] using hmiss
  unfold enhance_message at hfirst ⊢
  rw [hget] at hfirst ⊢
  dsimp only at hfirst ⊢
  cases he : (TE_enhance message style tone ef backend).1 with
  | error e =>
    rw [he] at hfirst
    simp at hfirst
  | ok pr =>
    obtain ⟨enh, meta⟩ := pr
    rw [he] at hfirst
    dsimp only at hfirst ⊢
    cases ha : analyze_improvements message enh style.value tone.value with
    | error e =>
      rw [ha] at hfirst
      simp at hfirst
    | ok imps =>
      rw [ha] at hfirst
      dsimp only at hfirst ⊢
      injection hfirst with hr
      subst hr
      refine ⟨rfl, rfl, ?_⟩
      unfold cache_result CacheFaults.none
      rfl

/-- C7 amended: the cache key is a pure content fingerprint — equal
user ids and equal serialized (message, style, tone) content give equal
keys; the serialization itself is injective for the colon-free style and
tone values of the service, so distinct triples always produce distinct
hash inputs (though SHA-256 collisions over the full message space exist);
and replaying enhance for the same caller and triple after a first
successful call with an intervening successful cache write returns the
identical enhanced text, improvements and metadata with cached = true,
leaving the store unchanged. -/
theorem C7_cache_key_replay :
    (∀ u1 u2 m1 s1 t1 m2 s2 t2 : List Char, u1 = u2 →
      cacheContent m1 s1 t1 = cacheContent m2 s2 t2 →
      build_cache_key u1 m1 s1 t1 = build_cache_key u2 m2 s2 t2) ∧
    (∀ m1 s1 t1 m2 s2 t2 : List Char,
      (Char.ofNat 58) ∉ s1 → (Char.ofNat 58) ∉ t1 →
      (Char.ofNat 58) ∉ s2 → (Char.ofNat 58) ∉ t2 →
      cacheContent m1 s1 t1 = cacheContent m2 s2 t2 →
      m1 = m2 ∧ s1 = s2 ∧ t1 = t2) ∧
    (∀ (st : CacheStore) (userId message : List Char) (style : EnhancementStyle)
      (tone : EnhancementTone) (ef : Bool)
      (backend : Except (List Char) OllamaResponse) (r1 : EnhanceResponse),
      storeGet st (build_cache_key userId message style.value.data tone.value.data)
        = Option.none →
      (enhance_message CacheFaults.none st userId message style tone ef backend).1
        = .ok r1 →
      enhance_message CacheFaults.none
        (enhance_message CacheFaults.none st userId message style tone ef backend).2
        userId message style tone ef backend =
        (.ok ⟨message, r1.enhanced, style.value, tone.value, r1.improvements,
          r1.metadata, true⟩,
         (enhance_message CacheFaults.none st userId message style tone ef backend).2)) := by
  refine ⟨?_, ?_, ?_⟩
  · intro u1 u2 m1 s1 t1 m2 s2 t2 hu hcontent
    subst hu
    unfold build_cache_key
    rw [hcontent]
  · intro m1 s1 t1 m2 s2 t2 hs1 ht1 hs2 ht2 h
    have hshape : ∀ m s t : List Char, (cacheContent m s t).reverse =
        t.reverse ++ (Char.ofNat 58) :: (s.reverse ++ (Char.ofNat 58) :: m.reverse) := by
      intro m s t
      have hcolon : (":".data : List Char) = [Char.ofNat 58] := by decide
      unfold cacheContent
      rw [hcolon]
      simp [List.reverse_append, List.append_assoc]
    have hrev := congrArg List.reverse h
    rw [hshape, hshape] at hrev
    have h1 := append_colon_inj (by simpa using ht1) (by simpa using ht2) hrev
    have h2 := append_colon_inj (by simpa using hs1) (by simpa using hs2) h1.2
    refine ⟨?_, ?_, ?_⟩
    · have := h2.2
      simpa using congrArg List.reverse this
    · have := h2.1
      simpa using congrArg List.reverse this
    · have := h1.1
      simpa using congrArg List.reverse this
  · intro st userId message style tone ef backend r1 hmiss hfirst
    obtain ⟨horig, hcached, hst2⟩ := enhance_message_fresh st userId message style tone
      ef backend r1 hmiss hfirst
    have hget2 : storeGet
        (enhance_message CacheFaults.none st userId message style tone ef backend).2
        (build_cache_key userId message style.value.data tone.value.data) =
        some ⟨r1.enhanced, r1.improvements, r1.metadata⟩ := by
      rw [hst2]
      unfold storeSet storeGet
      rw [if_pos rfl]
    exact enhance_message_hit _ userId message style tone ef backend _ hget2

/-- Witness for C7 amended: a concrete first call through the rule-based
fallback, then a replay that hits the cache. -/
theorem C7_cache_key_replay_witness :
    enhance_message CacheFaults.none
      (enhance_message CacheFaults.none [] "u".data "hey bro".data .professional
        .neutral true (.error "down".data)).2
      "u".data "hey bro".data .professional .neutral true (.error "down".data) =
      (.ok ⟨"hey bro".data, "Hey.".data, "professional", "neutral",
        ["Made more concise", "Capitalized first letter", "Added proper punctuation",
          "Replaced informal language"],
        ⟨"fallback", "professional", "neutral", some "down".data, Option.none,
          Option.none⟩, true⟩,
       (enhance_message CacheFaults.none [] "u".data "hey bro".data .professional
         .neutral true (.error "down".data)).2) :=
  C7_cache_key_replay.2.2 [] "u".data "hey bro".data .professional .neutral true
    (.error "down".data)
    ⟨"hey bro".data, "Hey.".data, "professional", "neutral",
      ["Made more concise", "Capitalized first letter", "Added proper punctuation",
        "Replaced informal language"],
      ⟨"fallback", "professional", "neutral", some "down".data, Option.none,
        Option.none⟩, false⟩
    rfl (by decide)

/-- C7 fails on the code as universally stated: by cardinality there exist
two distinct valid messages of length 2000 whose cache keys under the real
SHA-256-based fingerprint coincide — the 64-hex-digit digest space is
strictly smaller than the message space, so distinct valid triples do not
always produce distinct keys. -/
theorem C7_counterexample :
    ∃ m1 m2 : List Char, m1 ≠ m2 ∧
      m1.length = 2000 ∧ m2.length = 2000 ∧
      pyStrip m1 = m1 ∧ pyStrip m2 = m2 ∧
      build_cache_key "u".data m1 "professional".data "neutral".data =
        build_cache_key "u".data m2 "professional".data "neutral".data := by
  have hcard : Fintype.card (Fin 64 → Fin 16) < Fintype.card (Fin 2000 → Fin 2) := by
    rw [Fintype.card_fun, Fintype.card_fun]
    simp only [Fintype.card_fin]
    calc (16:ℕ)^64 = 2^256 := by rw [show (16:ℕ) = 2^4 from rfl, ← pow_mul]
    _ < 2^2000 := by
        apply pow_lt_pow_right₀ one_lt_two
        norm_num
  obtain ⟨v, w, hvw, hg⟩ := Fintype.exists_ne_map_eq_of_card_lt keyDigest hcard
  have hdig : SHA256.sha256hex (strBytes
      (cacheContent (binMsg v) "professional".data "neutral".data)) =
      SHA256.sha256hex (strBytes
        (cacheContent (binMsg w) "professional".data "neutral".data)) := by
    apply hex_list_ext (sha256hex_length _) (sha256hex_length _)
      (sha256hex_mem _) (sha256hex_mem _)
    intro i
    exact congrFun hg i
  have hnospace : ∀ u : Fin 2000 → Fin 2, ∀ c ∈ binMsg u, pyIsSpace c = false := by
    intro u c hc
    rcases binMsg_chars hc with rfl | rfl <;> decide
  refine ⟨binMsg v, binMsg w, ?_, ?_, ?_, ?_, ?_, ?_⟩
  · intro hcon
    exact hvw (binMsg_inj hcon)
  · unfold binMsg
    exact List.length_ofFn _
  · unfold binMsg
    exact List.length_ofFn _
  · exact pyStrip_eq_self_of_no_space (hnospace v)
  · exact pyStrip_eq_self_of_no_space (hnospace w)
  · unfold build_cache_key
    rw [hdig]

end Visper
